import Mathlib

open List

/-!
Shallow embedding of the chained hash table implemented in
src/sfcUtil/hashtable.c, together with proofs of the specification
claims about it.

Modelling conventions:
* A C bucket array of KeyValuePair chains becomes a list of lists
  (head of a list = head of the chain).
* Machine longs become Int (counts) and Nat (bucket indices and counts);
  the C floats holding the ratio configuration become Rat.
* NULL results are represented by Option/none; the assert-guarded
  non-null key and value arguments are simply total arguments.
* malloc outcomes are made explicit: operations that allocate take a
  Bool saying whether the allocation succeeds, exactly at the call
  sites where hashtable.c checks malloc for NULL.
* Keys and values stay opaque type parameters; the configured key
  comparator returns Int with zero meaning "equal", as in C.
-/

/-- KeyValuePair mirrors the C struct: one chain node holding a key and a
value (the next pointer becomes the tail of the enclosing list). -/
structure KeyValuePair (κ ν : Type) where
  key : κ
  value : ν
deriving DecidableEq

/-- HashTable mirrors the C struct HashTable: the bucket array, the bucket
and element counts, the resize configuration and the pluggable strategy
functions.  The deallocator callbacks are side effects and carry no data, so
they have no model field; the entries they would be handed are produced as
explicit results where a claim needs them. -/
structure HashTable (κ ν : Type) where
  bucketArray : List (List (KeyValuePair κ ν))
  numOfBuckets : Nat
  numOfElements : Int
  idealRatio : Rat
  lowerRehashThreshold : Rat
  upperRehashThreshold : Rat
  keycmp : κ → κ → Int
  valuecmp : ν → ν → Int
  hashFunction : κ → Nat

/-- Bucket index computed by the C code: hashFunction(key) % numOfBuckets. -/
def bucketIdx {κ ν : Type} (ht : HashTable κ ν) (key : κ) : Nat :=
  ht.hashFunction key % ht.numOfBuckets

/-- Chain read by the C code as hashTable->bucketArray[i]. -/
def bucketOf {κ ν : Type} (ht : HashTable κ ν) (i : Nat) : List (KeyValuePair κ ν) :=
  ht.bucketArray.getD i []

/-- Live entries of the table, in bucket order and chain order. -/
def entries {κ ν : Type} (ht : HashTable κ ν) : List (KeyValuePair κ ν) :=
  ht.bucketArray.flatten

/-- Chain scan shared by HashTableGet, HashTablePut and HashTableRemove:
`while (pair != NULL && keycmp(key, pair->key) != 0) pair = pair->next`. -/
def chainFind {κ ν : Type} (cmp : κ → κ → Int) (key : κ) :
    List (KeyValuePair κ ν) → Option (KeyValuePair κ ν)
  | [] => none
  | p :: rest => if cmp key p.key = 0 then some p else chainFind cmp key rest

/-- Effect of HashTablePut's found branch on the chain: the first pair whose
key compares equal gets both its key and its value overwritten. -/
def chainReplace {κ ν : Type} (cmp : κ → κ → Int) (key : κ) (value : ν) :
    List (KeyValuePair κ ν) → List (KeyValuePair κ ν)
  | [] => []
  | p :: rest =>
      if cmp key p.key = 0 then ⟨key, value⟩ :: rest
      else p :: chainReplace cmp key value rest

/-- Effect of HashTableRemove on the chain: the first pair whose key compares
equal is unlinked. -/
def chainRemove {κ ν : Type} (cmp : κ → κ → Int) (key : κ) :
    List (KeyValuePair κ ν) → List (KeyValuePair κ ν)
  | [] => []
  | p :: rest =>
      if cmp key p.key = 0 then rest else p :: chainRemove cmp key rest

/-- Odd trial divisors 3, 5, ..., 49 visited by the loop
`for (i = 3; i < 51; i += 2)` of isProbablePrime. -/
def oddTrialDivisors : List Int :=
  [3, 5, 7, 9, 11, 13, 15, 17, 19, 21, 23, 25, 27, 29, 31,
   33, 35, 37, 39, 41, 43, 45, 47, 49]

/-- Body of isProbablePrime: for each divisor in order, equality accepts,
divisibility rejects, and surviving the whole list accepts. -/
def trialDivide (number : Int) : List Int → Bool
  | [] => true
  | i :: rest =>
      if number = i then true
      else if number % i = 0 then false
      else trialDivide number rest

/-- isProbablePrime from hashtable.c: trial division by the odd numbers
3..49. -/
def isProbablePrime (oddNumber : Int) : Bool :=
  trialDivide oddNumber oddTrialDivisors

/-- Starting candidate of calculateIdealNumOfBuckets:
`numOfElements / idealRatio` (C float division truncated into a long,
which for the nonnegative counts involved is the floor), clamped up to 5,
otherwise forced odd with `|= 0x01`. -/
def idealStart {κ ν : Type} (ht : HashTable κ ν) : Int :=
  let ideal : Int := ((ht.numOfElements : Rat) / ht.idealRatio).floor
  if ideal < 5 then 5 else ((ideal.toNat ||| 1 : Nat) : Int)

/-- Setting the low bit of a natural number yields the next odd number at or
above it. -/
theorem lor_one_eq (n : Nat) : n ||| 1 = 2 * (n / 2) + 1 := by
  apply Nat.eq_of_testBit_eq
  intro i
  cases i with
  | zero =>
      rw [Nat.testBit_or]
      simp only [Nat.testBit_zero]
      have h1 : (2 * (n / 2) + 1) % 2 = 1 := by omega
      simp [h1]
  | succ j =>
      rw [Nat.testBit_or, Nat.testBit_succ, Nat.testBit_succ, Nat.testBit_succ]
      have h1 : (1 : Nat) / 2 = 0 := rfl
      have h2 : (2 * (n / 2) + 1) / 2 = n / 2 := by omega
      rw [h1, h2]
      simp

/-- idealStart is always odd. -/
theorem idealStart_odd {κ ν : Type} (ht : HashTable κ ν) :
    idealStart ht % 2 = 1 := by
  unfold idealStart
  set ideal : Int := ((ht.numOfElements : Rat) / ht.idealRatio).floor with hid
  by_cases h : ideal < 5
  · simp [h]
  · simp only [h, if_false]
    rw [lor_one_eq]
    push_cast
    omega

/-- idealStart is always at least 5. -/
theorem idealStart_ge_five {κ ν : Type} (ht : HashTable κ ν) :
    5 ≤ idealStart ht := by
  unfold idealStart
  set ideal : Int := ((ht.numOfElements : Rat) / ht.idealRatio).floor with hid
  by_cases h : ideal < 5
  · simp [h]
  · simp only [h, if_false]
    rw [lor_one_eq]
    push_cast
    omega

/-- Trial division accepts any number all of whose listed divisions are
either exact self-hits or non-divisions. -/
theorem trialDivide_eq_true {n : Int} :
    ∀ L : List Int, (∀ i ∈ L, n % i = 0 → n = i) → trialDivide n L = true := by
  intro L
  induction L with
  | nil => intro _; rfl
  | cons i rest ih =>
      intro h
      unfold trialDivide
      by_cases he : n = i
      · simp [he]
      · have hd : ¬ n % i = 0 := fun hmod => he (h i (by simp) hmod)
        simp only [he, if_false, hd, if_false]
        exact ih fun j hj => h j (by simp [hj])

/-- Every divisor that the trial division loop visits lies between 3 and 49. -/
theorem oddTrialDivisors_bounds : ∀ i ∈ oddTrialDivisors, 3 ≤ i ∧ i ≤ 49 := by
  decide

/-- Every large enough prime congruent to the (odd) start modulo 2 passes
isProbablePrime, so the candidate search has something to find. -/
theorem exists_probablePrime_step (s : Int) (hodd : s % 2 = 1) :
    ∃ k : Nat, isProbablePrime (s + 2 * (k : Int)) = true := by
  obtain ⟨p, hple, hp⟩ := Nat.exists_infinite_primes (max s.toNat 53)
  have hp53 : 53 ≤ p := le_trans (le_max_right _ _) hple
  have hps : s.toNat ≤ p := le_trans (le_max_left _ _) hple
  have hsle : s ≤ (p : Int) := by
    rcases le_or_lt 0 s with hs | hs
    · omega
    · omega
  have hpodd : p % 2 = 1 := Nat.odd_iff.mp (hp.odd_of_ne_two (by omega))
  refine ⟨((p : Int) - s).toNat / 2, ?_⟩
  have heq : s + 2 * ((((p : Int) - s).toNat / 2 : Nat) : Int) = (p : Int) := by
    have h0 : (0:Int) ≤ (p : Int) - s := by omega
    have h1 : (((p : Int) - s).toNat : Int) = (p : Int) - s := Int.toNat_of_nonneg h0
    push_cast
    omega
  rw [heq]
  unfold isProbablePrime
  apply trialDivide_eq_true
  intro i hi hmod
  have hi3 : 3 ≤ i ∧ i ≤ 49 := oddTrialDivisors_bounds i hi
  have hdvd : i ∣ (p : Int) := Int.dvd_of_emod_eq_zero hmod
  have hin : i.toNat ∣ p := by
    rcases hdvd with ⟨c, hc⟩
    have hc0 : 0 ≤ c := by
      by_contra hneg
      push_neg at hneg
      have hlt : i * c < 0 := mul_neg_of_pos_of_neg (by omega) hneg
      have hge : (0:Int) ≤ (p : Int) := Int.natCast_nonneg p
      linarith [hc]
    refine ⟨c.toNat, ?_⟩
    have hcast : (p : Int) = (i.toNat : Int) * (c.toNat : Int) := by
      rw [Int.toNat_of_nonneg (by omega : (0:Int) ≤ i), Int.toNat_of_nonneg hc0]
      exact hc
    exact_mod_cast hcast
  rcases Nat.Prime.eq_one_or_self_of_dvd hp i.toNat hin with h1 | h2
  · omega
  · omega

/-- calculateIdealNumOfBuckets from hashtable.c: starting from idealStart,
advance by 2 until isProbablePrime accepts; Nat.find picks exactly the first
accepted candidate, which is what the C while loop returns. -/
def calculateIdealNumOfBuckets {κ ν : Type} (ht : HashTable κ ν) : Int :=
  idealStart ht +
    2 * ((Nat.find (exists_probablePrime_step (idealStart ht) (idealStart_odd ht)) : Nat) : Int)

/-- Bucket count that HashTableRehash actually rehashes to: 0 requests the
computed ideal count, anything else is used directly. -/
def rehashTarget {κ ν : Type} (ht : HashTable κ ν) (numOfBuckets : Nat) : Nat :=
  if numOfBuckets = 0 then (calculateIdealNumOfBuckets ht).toNat else numOfBuckets

/-- Loop body of HashTableRehash's redistribution: one pair is relinked to
the front of the new bucket selected by hash(key) % n. -/
def rehashInsert {κ ν : Type} (hash : κ → Nat) (n : Nat)
    (arr : List (List (KeyValuePair κ ν))) (p : KeyValuePair κ ν) :
    List (List (KeyValuePair κ ν)) :=
  arr.set (hash p.key % n) (p :: arr.getD (hash p.key % n) [])

/-- HashTableRehash from hashtable.c.  A requested count of 0 asks for the
computed ideal count; rehashing to the current count is a no-op; a failed
allocation of the new bucket array (allocOk = false) silently leaves the
table unchanged; otherwise every pair is relinked, in ascending old-bucket
order and chain order, to the front of its new bucket. -/
def HashTableRehash {κ ν : Type} (allocOk : Bool) (ht : HashTable κ ν)
    (numOfBuckets : Nat) : HashTable κ ν :=
  let n : Nat := rehashTarget ht numOfBuckets
  if n = ht.numOfBuckets then ht
  else if allocOk then
    { ht with
      bucketArray :=
        ht.bucketArray.foldl
          (fun acc chain => chain.foldl (rehashInsert ht.hashFunction n) acc)
          (List.replicate n []),
      numOfBuckets := n }
  else ht

/-- HashTablePut from hashtable.c.  entryAlloc says whether the malloc of a
new pair would succeed; rehashAlloc feeds a triggered auto-rehash.  Returns
the C result code together with the new table. -/
def HashTablePut {κ ν : Type} (entryAlloc rehashAlloc : Bool)
    (ht : HashTable κ ν) (key : κ) (value : ν) : Int × HashTable κ ν :=
  let hashValue := bucketIdx ht key
  let bucket := bucketOf ht hashValue
  match chainFind ht.keycmp key bucket with
  | some _ =>
      (0, { ht with
              bucketArray :=
                ht.bucketArray.set hashValue (chainReplace ht.keycmp key value bucket) })
  | none =>
      if entryAlloc then
        let ht1 : HashTable κ ν :=
          { ht with
              bucketArray := ht.bucketArray.set hashValue (⟨key, value⟩ :: bucket),
              numOfElements := ht.numOfElements + 1 }
        (0,
          if ht1.upperRehashThreshold > ht1.idealRatio ∧
             (ht1.numOfElements : Rat) / (ht1.numOfBuckets : Rat) > ht1.upperRehashThreshold
          then HashTableRehash rehashAlloc ht1 0
          else ht1)
      else (-1, ht)

/-- HashTableGet from hashtable.c: scan the chain of the key's bucket and
return the matching value, or none for the C NULL. -/
def HashTableGet {κ ν : Type} (ht : HashTable κ ν) (key : κ) : Option ν :=
  match chainFind ht.keycmp key (bucketOf ht (bucketIdx ht key)) with
  | none => none
  | some p => some p.value

/-- HashTableContainsKey from hashtable.c: get returned non-NULL. -/
def HashTableContainsKey {κ ν : Type} (ht : HashTable κ ν) (key : κ) : Bool :=
  (HashTableGet ht key).isSome

/-- HashTableContainsValue from hashtable.c: linear scan of every chain with
the value comparator. -/
def HashTableContainsValue {κ ν : Type} (ht : HashTable κ ν) (value : ν) : Bool :=
  ht.bucketArray.any fun chain => chain.any fun p => ht.valuecmp value p.value = 0

/-- HashTableRemove from hashtable.c: unlink the first pair of the key's
bucket chain whose key compares equal, decrement the count, and possibly
auto-rehash against the lower threshold. -/
def HashTableRemove {κ ν : Type} (rehashAlloc : Bool) (ht : HashTable κ ν)
    (key : κ) : HashTable κ ν :=
  let hashValue := bucketIdx ht key
  let bucket := bucketOf ht hashValue
  match chainFind ht.keycmp key bucket with
  | none => ht
  | some _ =>
      let ht1 : HashTable κ ν :=
        { ht with
            bucketArray := ht.bucketArray.set hashValue (chainRemove ht.keycmp key bucket),
            numOfElements := ht.numOfElements - 1 }
      if ht1.lowerRehashThreshold > 0 ∧
         (ht1.numOfElements : Rat) / (ht1.numOfBuckets : Rat) < ht1.lowerRehashThreshold
      then HashTableRehash rehashAlloc ht1 0
      else ht1

/-- HashTableRemoveAll from hashtable.c: every chain is freed (its pairs are
handed to the configured deallocators in bucket order and chain order, which
the second component records), the count is reset and the table is rehashed
to 5 buckets. -/
def HashTableRemoveAll {κ ν : Type} (rehashAlloc : Bool) (ht : HashTable κ ν) :
    HashTable κ ν × List (KeyValuePair κ ν) :=
  let cleared : HashTable κ ν :=
    { ht with
        bucketArray := ht.bucketArray.map fun _ => [],
        numOfElements := 0 }
  (HashTableRehash rehashAlloc cleared 5, ht.bucketArray.flatten)

/-- HashTableSize from hashtable.c. -/
def HashTableSize {κ ν : Type} (ht : HashTable κ ν) : Int :=
  ht.numOfElements

/-- HashTableIsEmpty from hashtable.c. -/
def HashTableIsEmpty {κ ν : Type} (ht : HashTable κ ν) : Bool :=
  ht.numOfElements = 0

/-- HashTableGetNumBuckets from hashtable.c. -/
def HashTableGetNumBuckets {κ ν : Type} (ht : HashTable κ ν) : Nat :=
  ht.numOfBuckets

/-- Default key comparator pointercmp: zero exactly on identical references,
modelled on Nat standing for addresses. -/
def pointercmp (pointer1 pointer2 : Nat) : Int :=
  if pointer1 = pointer2 then 0 else 1

/-- Default hash pointerHashFunction: the address shifted right by 4. -/
def pointerHashFunction (pointer : Nat) : Nat :=
  pointer >>> 4

/-- HashTableCreate from hashtable.c (successful-allocation path): empty
buckets, zero elements, default ratios 3.0 / 0.0 / 15.0 and the default
pointer strategies. -/
def HashTableCreate (numOfBuckets : Nat) : HashTable Nat Nat :=
  { bucketArray := List.replicate numOfBuckets []
    numOfBuckets := numOfBuckets
    numOfElements := 0
    idealRatio := 3
    lowerRehashThreshold := 0
    upperRehashThreshold := 15
    keycmp := pointercmp
    valuecmp := pointercmp
    hashFunction := pointerHashFunction }

/-- HashTableSetKeyComparisonFunction from hashtable.c. -/
def HashTableSetKeyComparisonFunction {κ ν : Type} (ht : HashTable κ ν)
    (keycmp : κ → κ → Int) : HashTable κ ν :=
  { ht with keycmp := keycmp }

/-- HashTableSetValueComparisonFunction from hashtable.c. -/
def HashTableSetValueComparisonFunction {κ ν : Type} (ht : HashTable κ ν)
    (valuecmp : ν → ν → Int) : HashTable κ ν :=
  { ht with valuecmp := valuecmp }

/-- HashTableSetHashFunction from hashtable.c. -/
def HashTableSetHashFunction {κ ν : Type} (ht : HashTable κ ν)
    (hashFunction : κ → Nat) : HashTable κ ν :=
  { ht with hashFunction := hashFunction }

/-!
Representation invariant and assumptions on the configured strategies.
-/

/-- WF is the representation invariant of spec section 3: a positive bucket
count matching the array, an element count equal to the total chain length,
every entry sitting in the bucket selected by the current hash function, and
no two live entries with keys that compare equal (in either direction). -/
def WF {κ ν : Type} (ht : HashTable κ ν) : Prop :=
  0 < ht.numOfBuckets ∧
  ht.bucketArray.length = ht.numOfBuckets ∧
  ht.numOfElements = ((entries ht).length : Int) ∧
  (∀ i, i < ht.bucketArray.length →
    ∀ p ∈ bucketOf ht i, ht.hashFunction p.key % ht.numOfBuckets = i) ∧
  (entries ht).Pairwise
    (fun p q => ht.keycmp p.key q.key ≠ 0 ∧ ht.keycmp q.key p.key ≠ 0)

/-- GoodStrategies: the key comparator is an equivalence (zero meaning
equal) and the hash function sends comparator-equal keys to equal hashes.
These are the stated preconditions under which the table's contracts hold. -/
structure GoodStrategies {κ : Type} (cmp : κ → κ → Int) (hash : κ → Nat) : Prop where
  refl : ∀ k, cmp k k = 0
  symm : ∀ a b, cmp a b = 0 → cmp b a = 0
  trans : ∀ a b c, cmp a b = 0 → cmp b c = 0 → cmp a c = 0
  compat : ∀ a b, cmp a b = 0 → hash a = hash b

section ChainLemmas

variable {κ ν : Type} {cmp : κ → κ → Int} {key : κ} {value : ν}

theorem chainFind_eq_none {l : List (KeyValuePair κ ν)} :
    chainFind cmp key l = none ↔ ∀ p ∈ l, cmp key p.key ≠ 0 := by
  induction l with
  | nil => simp [chainFind]
  | cons p rest ih =>
      by_cases h : cmp key p.key = 0
      · simp [chainFind, h]
      · simp [chainFind, h, ih]

theorem chainFind_eq_some {l : List (KeyValuePair κ ν)} {p : KeyValuePair κ ν}
    (h : chainFind cmp key l = some p) : p ∈ l ∧ cmp key p.key = 0 := by
  induction l with
  | nil => simp [chainFind] at h
  | cons q rest ih =>
      by_cases hq : cmp key q.key = 0
      · simp [chainFind, hq] at h
        subst h
        exact ⟨by simp, hq⟩
      · simp [chainFind, hq] at h
        rcases ih h with ⟨hmem, hcmp⟩
        exact ⟨by simp [hmem], hcmp⟩

theorem chainFind_isSome {l : List (KeyValuePair κ ν)} {p : KeyValuePair κ ν}
    (hp : p ∈ l) (hcmp : cmp key p.key = 0) :
    ∃ q, chainFind cmp key l = some q := by
  cases hfind : chainFind (ν := ν) cmp key l with
  | some q => exact ⟨q, rfl⟩
  | none => exact absurd hcmp (chainFind_eq_none.mp hfind p hp)

theorem chainReplace_of_not_found {l : List (KeyValuePair κ ν)}
    (h : ∀ p ∈ l, cmp key p.key ≠ 0) : chainReplace cmp key value l = l := by
  induction l with
  | nil => rfl
  | cons p rest ih =>
      have hp : cmp key p.key ≠ 0 := h p (by simp)
      simp [chainReplace, hp]
      exact ih fun q hq => h q (by simp [hq])

theorem chainRemove_of_not_found {l : List (KeyValuePair κ ν)}
    (h : ∀ p ∈ l, cmp key p.key ≠ 0) : chainRemove cmp key l = l := by
  induction l with
  | nil => rfl
  | cons p rest ih =>
      have hp : cmp key p.key ≠ 0 := h p (by simp)
      simp [chainRemove, hp]
      exact ih fun q hq => h q (by simp [hq])

theorem chainReplace_perm [DecidableEq κ] [DecidableEq ν]
    {l : List (KeyValuePair κ ν)} {m : KeyValuePair κ ν}
    (h : chainFind cmp key l = some m) :
    List.Perm (chainReplace cmp key value l) (⟨key, value⟩ :: l.erase m) := by
  induction l with
  | nil => simp [chainFind] at h
  | cons p rest ih =>
      by_cases hp : cmp key p.key = 0
      · simp [chainFind, hp] at h
        subst h
        simp [chainReplace, hp, List.erase_cons_head]
      · simp [chainFind, hp] at h
        have hpm : p ≠ m := by
          rcases chainFind_eq_some h with ⟨_, hcm⟩
          intro he
          exact hp (he ▸ hcm)
        rw [List.erase_cons_tail]
        · simp only [chainReplace, hp, if_neg hp]
          exact (List.Perm.cons p (ih h)).trans (List.Perm.swap _ _ _)
        · simp [hpm]

theorem chainRemove_perm [DecidableEq κ] [DecidableEq ν]
    {l : List (KeyValuePair κ ν)} {m : KeyValuePair κ ν}
    (h : chainFind cmp key l = some m) :
    List.Perm (chainRemove cmp key l) (l.erase m) := by
  induction l with
  | nil => simp [chainFind] at h
  | cons p rest ih =>
      by_cases hp : cmp key p.key = 0
      · simp [chainFind, hp] at h
        subst h
        simp [chainRemove, hp, List.erase_cons_head]
      · simp [chainFind, hp] at h
        have hpm : p ≠ m := by
          rcases chainFind_eq_some h with ⟨_, hcm⟩
          intro he
          exact hp (he ▸ hcm)
        rw [List.erase_cons_tail]
        · simp only [chainRemove, if_neg hp]
          exact List.Perm.cons p (ih h)
        · simp [hpm]

end ChainLemmas

section BucketInfrastructure

variable {α : Type}

/-- Writing back the element already stored at a valid index is the
identity. -/
theorem set_getD_self (l : List α) (i : Nat) (d : α) (h : i < l.length) :
    l.set i (l.getD i d) = l := by
  induction l generalizing i with
  | nil => rfl
  | cons a t ih =>
      cases i with
      | zero => rfl
      | succ j =>
          simp only [List.set_cons_succ, List.getD_cons_succ]
          rw [ih j (by simpa using h)]

/-- getD after set at the written index. -/
theorem getD_set_self (l : List α) (i : Nat) (c d : α) (h : i < l.length) :
    (l.set i c).getD i d = c := by
  induction l generalizing i with
  | nil => simp at h
  | cons a t ih =>
      cases i with
      | zero => rfl
      | succ j =>
          simp only [List.set_cons_succ, List.getD_cons_succ]
          exact ih j (by simpa using h)

/-- getD after set at a different index. -/
theorem getD_set_ne (l : List α) (i j : Nat) (c d : α) (hne : j ≠ i) :
    (l.set i c).getD j d = l.getD j d := by
  induction l generalizing i j with
  | nil => rfl
  | cons a t ih =>
      cases i with
      | zero =>
          cases j with
          | zero => exact absurd rfl hne
          | succ jj => rfl
      | succ ii =>
          cases j with
          | zero => rfl
          | succ jj =>
              simp only [List.set_cons_succ, List.getD_cons_succ]
              exact ih ii jj (fun he => hne (by rw [he]))

/-- Flattening after replacing bucket i by c: up to permutation this is c
together with the flattening of the array with bucket i emptied. -/
theorem flatten_set_perm (arr : List (List α)) (i : Nat) (c : List α)
    (h : i < arr.length) :
    List.Perm ((arr.set i c).flatten) (c ++ (arr.set i []).flatten) := by
  induction arr generalizing i with
  | nil => simp at h
  | cons b bs ih =>
      cases i with
      | zero => simp
      | succ j =>
          have hj : j < bs.length := by simpa using h
          calc ((b :: bs).set (j+1) c).flatten
              = b ++ (bs.set j c).flatten := by simp
            _ ~ b ++ (c ++ (bs.set j []).flatten) := (ih j hj).append_left b
            _ = (b ++ c) ++ (bs.set j []).flatten := by rw [List.append_assoc]
            _ ~ (c ++ b) ++ (bs.set j []).flatten :=
                (List.perm_append_comm).append_right _
            _ = c ++ ((b :: bs).set (j+1) []).flatten := by simp

end BucketInfrastructure

section TableViewLemmas

variable {κ ν : Type}

/-- Membership in the entries view is membership in some valid bucket. -/
theorem mem_entries_iff {ht : HashTable κ ν} {p : KeyValuePair κ ν} :
    p ∈ entries ht ↔ ∃ i, i < ht.bucketArray.length ∧ p ∈ bucketOf ht i := by
  constructor
  · intro hp
    rcases List.mem_flatten.mp hp with ⟨l, hl, hpl⟩
    rcases List.mem_iff_getElem.mp hl with ⟨i, hi, hil⟩
    exact ⟨i, hi, by rw [bucketOf, List.getD_eq_getElem _ _ hi, hil]; exact hpl⟩
  · rintro ⟨i, hi, hp⟩
    apply List.mem_flatten.mpr
    refine ⟨ht.bucketArray[i], List.getElem_mem hi, ?_⟩
    rwa [bucketOf, List.getD_eq_getElem _ _ hi] at hp

/-- Splitting the entries view at a valid bucket. -/
theorem entries_perm_bucket (ht : HashTable κ ν) (i : Nat)
    (h : i < ht.bucketArray.length) :
    List.Perm (entries ht) (bucketOf ht i ++ (ht.bucketArray.set i []).flatten) := by
  have hperm := flatten_set_perm ht.bucketArray i (bucketOf ht i) h
  rw [bucketOf, set_getD_self _ _ _ h] at hperm
  exact hperm

/-- The distinct-keys relation of the uniqueness invariant is symmetric. -/
theorem distinctKeys_symm (ht : HashTable κ ν) :
    Symmetric (fun p q : KeyValuePair κ ν =>
      ht.keycmp p.key q.key ≠ 0 ∧ ht.keycmp q.key p.key ≠ 0) :=
  fun _ _ h => ⟨h.2, h.1⟩

/-- In a well-formed table every entry lives in the bucket that the current
hash function selects for its key. -/
theorem wf_mem_bucketIdx {ht : HashTable κ ν} (hWF : WF ht)
    {p : KeyValuePair κ ν} (hp : p ∈ entries ht) :
    p ∈ bucketOf ht (bucketIdx ht p.key) := by
  rcases mem_entries_iff.mp hp with ⟨i, hi, hpi⟩
  have := hWF.2.2.2.1 i hi p hpi
  rwa [bucketIdx, this]

/-- With good strategies, two entries matching the same probe key are the
same entry. -/
theorem wf_unique {ht : HashTable κ ν} (hWF : WF ht)
    (hG : GoodStrategies ht.keycmp ht.hashFunction) {k : κ}
    {p q : KeyValuePair κ ν} (hp : p ∈ entries ht) (hq : q ∈ entries ht)
    (hpk : ht.keycmp k p.key = 0) (hqk : ht.keycmp k q.key = 0) : p = q := by
  by_contra hne
  have hR := (List.Pairwise.forall (distinctKeys_symm ht) hWF.2.2.2.2) hp hq hne
  exact hR.1 (hG.trans _ _ _ (hG.symm _ _ hpk) hqk)

/-- A well-formed table with good strategies has no duplicate entries. -/
theorem wf_nodup {ht : HashTable κ ν} (hWF : WF ht)
    (hG : GoodStrategies ht.keycmp ht.hashFunction) : (entries ht).Nodup := by
  apply List.Pairwise.imp ?_ hWF.2.2.2.2
  intro p q hpq he
  exact hpq.1 (he ▸ hG.refl p.key)

/-- Valid buckets inject into the entries view. -/
theorem bucketOf_subset_entries {ht : HashTable κ ν} {i : Nat}
    (hi : i < ht.bucketArray.length) {p : KeyValuePair κ ν}
    (hp : p ∈ bucketOf ht i) : p ∈ entries ht :=
  mem_entries_iff.mpr ⟨i, hi, hp⟩

/-- HashTableGet characterised on the entries view: some value is returned
exactly for an entry whose key compares equal to the probe key. -/
theorem get_eq_some_iff {ht : HashTable κ ν} (hWF : WF ht)
    (hG : GoodStrategies ht.keycmp ht.hashFunction) {k : κ} {v : ν} :
    HashTableGet ht k = some v ↔
      ∃ p, p ∈ entries ht ∧ ht.keycmp k p.key = 0 ∧ p.value = v := by
  have hlen : ht.bucketArray.length = ht.numOfBuckets := hWF.2.1
  have hblt : bucketIdx ht k < ht.bucketArray.length := by
    rw [hlen]; exact Nat.mod_lt _ hWF.1
  constructor
  · intro hget
    unfold HashTableGet at hget
    cases hfind : chainFind ht.keycmp k (bucketOf ht (bucketIdx ht k)) with
    | none => rw [hfind] at hget; simp at hget
    | some p =>
        rw [hfind] at hget
        simp only [Option.some.injEq] at hget
        rcases chainFind_eq_some hfind with ⟨hmem, hcmp⟩
        exact ⟨p, bucketOf_subset_entries hblt hmem, hcmp, hget⟩
  · rintro ⟨p, hp, hcmp, hv⟩
    have hbp : p ∈ bucketOf ht (bucketIdx ht p.key) := wf_mem_bucketIdx hWF hp
    have hbi : bucketIdx ht k = bucketIdx ht p.key := by
      rw [bucketIdx, bucketIdx, hG.compat _ _ hcmp]
    rcases chainFind_isSome (hbi ▸ hbp) hcmp with ⟨q, hq⟩
    rcases chainFind_eq_some hq with ⟨hqmem, hqcmp⟩
    have hqe : q ∈ entries ht := bucketOf_subset_entries hblt hqmem
    have hpq : p = q := wf_unique hWF hG hp hqe hcmp hqcmp
    simp only [HashTableGet, hq]
    rw [← hpq, hv]

/-- HashTableGet characterised on the entries view: absent exactly when no
entry of the table matches the probe key. -/
theorem get_eq_none_iff {ht : HashTable κ ν} (hWF : WF ht)
    (hG : GoodStrategies ht.keycmp ht.hashFunction) {k : κ} :
    HashTableGet ht k = none ↔ ∀ p ∈ entries ht, ht.keycmp k p.key ≠ 0 := by
  have hlen : ht.bucketArray.length = ht.numOfBuckets := hWF.2.1
  have hblt : bucketIdx ht k < ht.bucketArray.length := by
    rw [hlen]; exact Nat.mod_lt _ hWF.1
  constructor
  · intro hget p hp hcmp
    unfold HashTableGet at hget
    cases hfind : chainFind ht.keycmp k (bucketOf ht (bucketIdx ht k)) with
    | some q => rw [hfind] at hget; simp at hget
    | none =>
        have hbp : p ∈ bucketOf ht (bucketIdx ht p.key) := wf_mem_bucketIdx hWF hp
        have hbi : bucketIdx ht k = bucketIdx ht p.key := by
          rw [bucketIdx, bucketIdx, hG.compat _ _ hcmp]
        exact chainFind_eq_none.mp hfind p (hbi ▸ hbp) hcmp
  · intro h
    unfold HashTableGet
    cases hfind : chainFind ht.keycmp k (bucketOf ht (bucketIdx ht k)) with
    | none => rfl
    | some q =>
        rcases chainFind_eq_some hfind with ⟨hqmem, hqcmp⟩
        exact absurd hqcmp (h q (bucketOf_subset_entries hblt hqmem))

end TableViewLemmas

section RehashLemmas

variable {κ ν : Type}

/-- Reading any bucket of a replicate of empty buckets gives no entries. -/
theorem getD_replicate_nil {α : Type} (n i : Nat) :
    (List.replicate n ([] : List α)).getD i [] = [] := by
  induction n generalizing i with
  | zero => rfl
  | succ m ih =>
      cases i with
      | zero => rfl
      | succ j => simp only [List.replicate_succ, List.getD_cons_succ]; exact ih j

/-- rehashInsert keeps the new bucket array's length. -/
theorem rehashInsert_length (hash : κ → Nat) (n : Nat)
    (arr : List (List (KeyValuePair κ ν))) (p : KeyValuePair κ ν) :
    (rehashInsert hash n arr p).length = arr.length := by
  simp [rehashInsert]

/-- Folding one chain through rehashInsert keeps the array length. -/
theorem rehashChainFold_length (hash : κ → Nat) (n : Nat)
    (chain : List (KeyValuePair κ ν)) :
    ∀ arr : List (List (KeyValuePair κ ν)),
      (chain.foldl (rehashInsert hash n) arr).length = arr.length := by
  induction chain with
  | nil => intro arr; rfl
  | cons p rest ih =>
      intro arr
      rw [List.foldl_cons, ih, rehashInsert_length]

/-- Folding all chains through rehashInsert keeps the array length. -/
theorem rehashFold_length (hash : κ → Nat) (n : Nat)
    (chains : List (List (KeyValuePair κ ν))) :
    ∀ arr : List (List (KeyValuePair κ ν)),
      (chains.foldl (fun acc chain => chain.foldl (rehashInsert hash n) acc) arr).length
      = arr.length := by
  induction chains with
  | nil => intro arr; rfl
  | cons c cs ih =>
      intro arr
      rw [List.foldl_cons, ih, rehashChainFold_length]

/-- One rehashInsert prepends exactly its pair to the flattened view. -/
theorem rehashInsert_flatten_perm (hash : κ → Nat) (n : Nat)
    (arr : List (List (KeyValuePair κ ν))) (p : KeyValuePair κ ν)
    (h : hash p.key % n < arr.length) :
    (rehashInsert hash n arr p).flatten ~ p :: arr.flatten := by
  have h1 := flatten_set_perm arr (hash p.key % n)
    (p :: arr.getD (hash p.key % n) []) h
  have h2 := flatten_set_perm arr (hash p.key % n)
    (arr.getD (hash p.key % n) []) h
  rw [set_getD_self _ _ _ h] at h2
  calc (rehashInsert hash n arr p).flatten
      ~ (p :: arr.getD (hash p.key % n) []) ++ (arr.set (hash p.key % n) []).flatten := h1
    _ = p :: (arr.getD (hash p.key % n) [] ++ (arr.set (hash p.key % n) []).flatten) := rfl
    _ ~ p :: arr.flatten := (h2.symm).cons p

/-- Folding one chain through rehashInsert prepends the chain's pairs, up to
permutation, to the flattened view. -/
theorem rehashChainFold_perm (hash : κ → Nat) (n : Nat) (hn : 0 < n)
    (chain : List (KeyValuePair κ ν)) :
    ∀ arr : List (List (KeyValuePair κ ν)), arr.length = n →
      (chain.foldl (rehashInsert hash n) arr).flatten ~ chain ++ arr.flatten := by
  induction chain with
  | nil => intro arr _; simp
  | cons p rest ih =>
      intro arr hlen
      rw [List.foldl_cons]
      have hidx : hash p.key % n < arr.length := by rw [hlen]; exact Nat.mod_lt _ hn
      have hlen1 : (rehashInsert hash n arr p).length = n := by
        rw [rehashInsert_length, hlen]
      calc (rest.foldl (rehashInsert hash n) (rehashInsert hash n arr p)).flatten
          ~ rest ++ (rehashInsert hash n arr p).flatten := ih _ hlen1
        _ ~ rest ++ (p :: arr.flatten) :=
            (rehashInsert_flatten_perm hash n arr p hidx).append_left rest
        _ ~ p :: (rest ++ arr.flatten) := List.perm_middle
        _ = (p :: rest) ++ arr.flatten := rfl

/-- Folding all chains through rehashInsert redistributes exactly the pairs
of all chains, up to permutation. -/
theorem rehashFold_perm (hash : κ → Nat) (n : Nat) (hn : 0 < n)
    (chains : List (List (KeyValuePair κ ν))) :
    ∀ arr : List (List (KeyValuePair κ ν)), arr.length = n →
      (chains.foldl (fun acc chain => chain.foldl (rehashInsert hash n) acc) arr).flatten
        ~ chains.flatten ++ arr.flatten := by
  induction chains with
  | nil => intro arr _; simp
  | cons c cs ih =>
      intro arr hlen
      rw [List.foldl_cons]
      have hlen1 : (c.foldl (rehashInsert hash n) arr).length = n := by
        rw [rehashChainFold_length, hlen]
      calc (cs.foldl (fun acc chain => chain.foldl (rehashInsert hash n) acc)
              (c.foldl (rehashInsert hash n) arr)).flatten
          ~ cs.flatten ++ (c.foldl (rehashInsert hash n) arr).flatten := ih _ hlen1
        _ ~ cs.flatten ++ (c ++ arr.flatten) :=
            (rehashChainFold_perm hash n hn c arr hlen).append_left cs.flatten
        _ = (cs.flatten ++ c) ++ arr.flatten := by rw [List.append_assoc]
        _ ~ (c ++ cs.flatten) ++ arr.flatten := List.perm_append_comm.append_right _
        _ = (c :: cs).flatten ++ arr.flatten := by simp

/-- Placement invariant of the redistribution: if every bucket of the
accumulator already honours hash % n, it still does after one insert. -/
theorem rehashInsert_placed (hash : κ → Nat) (n : Nat)
    (arr : List (List (KeyValuePair κ ν))) (p : KeyValuePair κ ν)
    (hplaced : ∀ i q, q ∈ arr.getD i [] → hash q.key % n = i) :
    ∀ i q, q ∈ (rehashInsert hash n arr p).getD i [] → hash q.key % n = i := by
  intro i q hq
  by_cases hcap : hash p.key % n < arr.length
  · by_cases hi : i = hash p.key % n
    · subst hi
      rw [rehashInsert, getD_set_self _ _ _ _ hcap] at hq
      rcases List.mem_cons.mp hq with hqp | hqold
      · rw [hqp]
      · exact hplaced _ q hqold
    · rw [rehashInsert, getD_set_ne _ _ _ _ _ hi] at hq
      exact hplaced i q hq
  · rw [rehashInsert, List.set_eq_of_length_le (by omega)] at hq
    exact hplaced i q hq

/-- Placement invariant through one chain fold. -/
theorem rehashChainFold_placed (hash : κ → Nat) (n : Nat)
    (chain : List (KeyValuePair κ ν)) :
    ∀ arr : List (List (KeyValuePair κ ν)),
      (∀ i q, q ∈ arr.getD i [] → hash q.key % n = i) →
      ∀ i q, q ∈ (chain.foldl (rehashInsert hash n) arr).getD i [] →
        hash q.key % n = i := by
  induction chain with
  | nil => intro arr h; exact h
  | cons p rest ih =>
      intro arr h
      rw [List.foldl_cons]
      exact ih _ (rehashInsert_placed hash n arr p h)

/-- Placement invariant through the whole redistribution. -/
theorem rehashFold_placed (hash : κ → Nat) (n : Nat)
    (chains : List (List (KeyValuePair κ ν))) :
    ∀ arr : List (List (KeyValuePair κ ν)),
      (∀ i q, q ∈ arr.getD i [] → hash q.key % n = i) →
      ∀ i q,
        q ∈ (chains.foldl (fun acc chain => chain.foldl (rehashInsert hash n) acc) arr).getD i []
          → hash q.key % n = i := by
  induction chains with
  | nil => intro arr h; exact h
  | cons c cs ih =>
      intro arr h
      rw [List.foldl_cons]
      exact ih _ (rehashChainFold_placed hash n c arr h)

/-- The resolved rehash bucket count is always positive. -/
theorem rehashTarget_pos (ht : HashTable κ ν) (m : Nat) : 0 < rehashTarget ht m := by
  unfold rehashTarget
  split
  · have h1 : 5 ≤ calculateIdealNumOfBuckets ht := by
      unfold calculateIdealNumOfBuckets
      have := idealStart_ge_five ht
      omega
    omega
  · omega

/-- HashTableRehash never changes the element count, the strategies or the
ratio configuration. -/
theorem rehash_fields (a : Bool) (ht : HashTable κ ν) (m : Nat) :
    (HashTableRehash a ht m).numOfElements = ht.numOfElements ∧
    (HashTableRehash a ht m).keycmp = ht.keycmp ∧
    (HashTableRehash a ht m).valuecmp = ht.valuecmp ∧
    (HashTableRehash a ht m).hashFunction = ht.hashFunction ∧
    (HashTableRehash a ht m).idealRatio = ht.idealRatio ∧
    (HashTableRehash a ht m).lowerRehashThreshold = ht.lowerRehashThreshold ∧
    (HashTableRehash a ht m).upperRehashThreshold = ht.upperRehashThreshold := by
  simp only [HashTableRehash]
  split
  · exact ⟨rfl, rfl, rfl, rfl, rfl, rfl, rfl⟩
  · split
    · exact ⟨rfl, rfl, rfl, rfl, rfl, rfl, rfl⟩
    · exact ⟨rfl, rfl, rfl, rfl, rfl, rfl, rfl⟩

/-- The entries of a rehashed table are a permutation of the old entries. -/
theorem rehash_entries_perm (a : Bool) (ht : HashTable κ ν) (m : Nat) :
    entries (HashTableRehash a ht m) ~ entries ht := by
  simp only [HashTableRehash]
  split
  · exact List.Perm.refl _
  · split
    · have hn : 0 < rehashTarget ht m := rehashTarget_pos ht m
      have hperm := rehashFold_perm ht.hashFunction (rehashTarget ht m) hn
        ht.bucketArray (List.replicate (rehashTarget ht m) [])
        (by rw [List.length_replicate])
      rw [List.flatten_replicate_nil, List.append_nil] at hperm
      exact hperm
    · exact List.Perm.refl _

/-- HashTableRehash preserves the representation invariant. -/
theorem rehash_WF (a : Bool) (ht : HashTable κ ν) (m : Nat) (hWF : WF ht) :
    WF (HashTableRehash a ht m) := by
  simp only [HashTableRehash]
  split
  · exact hWF
  · split
    · have hn : 0 < rehashTarget ht m := rehashTarget_pos ht m
      have hperm := rehashFold_perm ht.hashFunction (rehashTarget ht m) hn
        ht.bucketArray (List.replicate (rehashTarget ht m) [])
        (by rw [List.length_replicate])
      rw [List.flatten_replicate_nil, List.append_nil] at hperm
      refine ⟨hn, ?_, ?_, ?_, ?_⟩
      · dsimp only
        rw [rehashFold_length, List.length_replicate]
      · dsimp only [entries]
        rw [hperm.length_eq]
        exact hWF.2.2.1
      · intro i hi p hp
        dsimp only [bucketOf] at hp
        dsimp only
        exact rehashFold_placed ht.hashFunction (rehashTarget ht m) ht.bucketArray
          (List.replicate (rehashTarget ht m) [])
          (fun j q hq => by rw [getD_replicate_nil] at hq; cases hq) i p hp
      · dsimp only [entries]
        exact (hperm.pairwise_iff fun h => ⟨h.2, h.1⟩).mpr hWF.2.2.2.2
    · exact hWF

end RehashLemmas

section GetRehash

variable {κ ν : Type}

/-- Rehashing never changes what get returns, for any requested count. -/
theorem rehash_get (a : Bool) (ht : HashTable κ ν) (m : Nat) (hWF : WF ht)
    (hG : GoodStrategies ht.keycmp ht.hashFunction) (k : κ) :
    HashTableGet (HashTableRehash a ht m) k = HashTableGet ht k := by
  have hWF2 := rehash_WF a ht m hWF
  have hf := rehash_fields a ht m
  have hG2 : GoodStrategies (HashTableRehash a ht m).keycmp
      (HashTableRehash a ht m).hashFunction := by
    rw [hf.2.1, hf.2.2.2.1]; exact hG
  have hperm := rehash_entries_perm a ht m
  cases hg : HashTableGet ht k with
  | some v =>
      rcases (get_eq_some_iff hWF hG).mp hg with ⟨p, hp, hc, hv⟩
      exact (get_eq_some_iff hWF2 hG2).mpr
        ⟨p, hperm.mem_iff.mpr hp, by rw [hf.2.1]; exact hc, hv⟩
  | none =>
      apply (get_eq_none_iff hWF2 hG2).mpr
      intro p hp
      rw [hf.2.1]
      exact (get_eq_none_iff hWF hG).mp hg p (hperm.mem_iff.mp hp)

end GetRehash

section PutLemmas

variable {κ ν : Type}

/-- chainReplace introduces only the new pair. -/
theorem chainReplace_subset {cmp : κ → κ → Int} {key : κ} {value : ν}
    {l : List (KeyValuePair κ ν)} {p : KeyValuePair κ ν}
    (hp : p ∈ chainReplace cmp key value l) : p = ⟨key, value⟩ ∨ p ∈ l := by
  induction l with
  | nil => simp [chainReplace] at hp
  | cons q rest ih =>
      by_cases hq : cmp key q.key = 0
      · simp only [chainReplace, if_pos hq] at hp
        rcases List.mem_cons.mp hp with h | h
        · exact Or.inl h
        · exact Or.inr (List.mem_cons.mpr (Or.inr h))
      · simp only [chainReplace, if_neg hq] at hp
        rcases List.mem_cons.mp hp with h | h
        · exact Or.inr (List.mem_cons.mpr (Or.inl h))
        · rcases ih h with h2 | h2
          · exact Or.inl h2
          · exact Or.inr (List.mem_cons.mpr (Or.inr h2))

/-- Existence of a matching entry anywhere in a well-formed table is the same
as the chain scan of the key's bucket finding a pair. -/
theorem exists_match_iff_chainFind {ht : HashTable κ ν} (hWF : WF ht)
    (hG : GoodStrategies ht.keycmp ht.hashFunction) (k : κ) :
    (∃ p ∈ entries ht, ht.keycmp k p.key = 0) ↔
      ∃ m, chainFind ht.keycmp k (bucketOf ht (bucketIdx ht k)) = some m := by
  constructor
  · rintro ⟨p, hp, hc⟩
    have hbp : p ∈ bucketOf ht (bucketIdx ht p.key) := wf_mem_bucketIdx hWF hp
    have hbi : bucketIdx ht k = bucketIdx ht p.key := by
      rw [bucketIdx, bucketIdx, hG.compat _ _ hc]
    exact chainFind_isSome (hbi ▸ hbp) hc
  · rintro ⟨m, hm⟩
    rcases chainFind_eq_some hm with ⟨hmem, hcmp⟩
    have hblt : bucketIdx ht k < ht.bucketArray.length := by
      rw [hWF.2.1]; exact Nat.mod_lt _ hWF.1
    exact ⟨m, bucketOf_subset_entries hblt hmem, hcmp⟩

/-- HashTablePut never changes the strategies or ratio configuration. -/
theorem put_fields (a b : Bool) (ht : HashTable κ ν) (k : κ) (v : ν) :
    (HashTablePut a b ht k v).2.keycmp = ht.keycmp ∧
    (HashTablePut a b ht k v).2.valuecmp = ht.valuecmp ∧
    (HashTablePut a b ht k v).2.hashFunction = ht.hashFunction ∧
    (HashTablePut a b ht k v).2.idealRatio = ht.idealRatio ∧
    (HashTablePut a b ht k v).2.lowerRehashThreshold = ht.lowerRehashThreshold ∧
    (HashTablePut a b ht k v).2.upperRehashThreshold = ht.upperRehashThreshold := by
  simp only [HashTablePut]
  cases hfind : chainFind ht.keycmp k (bucketOf ht (bucketIdx ht k)) with
  | some m => exact ⟨rfl, rfl, rfl, rfl, rfl, rfl⟩
  | none =>
      cases a with
      | false => exact ⟨rfl, rfl, rfl, rfl, rfl, rfl⟩
      | true =>
          simp only [if_true]
          split
          · have hf := rehash_fields b
              { ht with
                  bucketArray := ht.bucketArray.set (bucketIdx ht k)
                    (⟨k, v⟩ :: bucketOf ht (bucketIdx ht k)),
                  numOfElements := ht.numOfElements + 1 } 0
            exact ⟨hf.2.1, hf.2.2.1, hf.2.2.2.1, hf.2.2.2.2.1, hf.2.2.2.2.2.1,
              hf.2.2.2.2.2.2⟩
          · exact ⟨rfl, rfl, rfl, rfl, rfl, rfl⟩

end PutLemmas

section PutCoreLemmas

variable {κ ν : Type} [DecidableEq κ] [DecidableEq ν]

/-- Bucket index validity in a well-formed table. -/
theorem bucketIdx_lt {ht : HashTable κ ν} (hWF : WF ht) (k : κ) :
    bucketIdx ht k < ht.bucketArray.length := by
  rw [hWF.2.1]; exact Nat.mod_lt _ hWF.1

/-- Array-level effect of the put found branch: the new flattening is the
fresh pair plus everything except the overwritten entry. -/
theorem put_found_array_perm {ht : HashTable κ ν} {k : κ} {v : ν}
    {m : KeyValuePair κ ν} (hWF : WF ht)
    (hfind : chainFind ht.keycmp k (bucketOf ht (bucketIdx ht k)) = some m) :
    (ht.bucketArray.set (bucketIdx ht k)
        (chainReplace ht.keycmp k v (bucketOf ht (bucketIdx ht k)))).flatten
      ~ ⟨k, v⟩ :: (entries ht).erase m := by
  have hblt := bucketIdx_lt hWF k
  have hmmem : m ∈ bucketOf ht (bucketIdx ht k) := (chainFind_eq_some hfind).1
  have h1 := flatten_set_perm ht.bucketArray (bucketIdx ht k)
    (chainReplace ht.keycmp k v (bucketOf ht (bucketIdx ht k))) hblt
  have h2 := entries_perm_bucket ht (bucketIdx ht k) hblt
  calc (ht.bucketArray.set (bucketIdx ht k)
          (chainReplace ht.keycmp k v (bucketOf ht (bucketIdx ht k)))).flatten
      ~ chainReplace ht.keycmp k v (bucketOf ht (bucketIdx ht k)) ++
          (ht.bucketArray.set (bucketIdx ht k) []).flatten := h1
    _ ~ (⟨k, v⟩ :: (bucketOf ht (bucketIdx ht k)).erase m) ++
          (ht.bucketArray.set (bucketIdx ht k) []).flatten :=
        (chainReplace_perm hfind).append_right _
    _ = ⟨k, v⟩ :: ((bucketOf ht (bucketIdx ht k)).erase m ++
          (ht.bucketArray.set (bucketIdx ht k) []).flatten) := rfl
    _ = ⟨k, v⟩ :: (bucketOf ht (bucketIdx ht k) ++
          (ht.bucketArray.set (bucketIdx ht k) []).flatten).erase m := by
        rw [List.erase_append_left _ hmmem]
    _ ~ ⟨k, v⟩ :: (entries ht).erase m := ((h2.erase m).symm).cons _

/-- Array-level effect of the put new-entry branch: the new flattening is the
fresh pair prepended. -/
theorem put_new_array_perm {ht : HashTable κ ν} {k : κ} {v : ν} (hWF : WF ht) :
    (ht.bucketArray.set (bucketIdx ht k)
        (⟨k, v⟩ :: bucketOf ht (bucketIdx ht k))).flatten
      ~ ⟨k, v⟩ :: entries ht := by
  have hblt := bucketIdx_lt hWF k
  have h1 := flatten_set_perm ht.bucketArray (bucketIdx ht k)
    (⟨k, v⟩ :: bucketOf ht (bucketIdx ht k)) hblt
  have h2 := entries_perm_bucket ht (bucketIdx ht k) hblt
  calc (ht.bucketArray.set (bucketIdx ht k)
          (⟨k, v⟩ :: bucketOf ht (bucketIdx ht k))).flatten
      ~ (⟨k, v⟩ :: bucketOf ht (bucketIdx ht k)) ++
          (ht.bucketArray.set (bucketIdx ht k) []).flatten := h1
    _ = ⟨k, v⟩ :: (bucketOf ht (bucketIdx ht k) ++
          (ht.bucketArray.set (bucketIdx ht k) []).flatten) := rfl
    _ ~ ⟨k, v⟩ :: entries ht := (h2.symm).cons _

/-- In a well-formed table with good strategies, a failed chain scan of the
key's bucket means no entry of the whole table matches. -/
theorem chainFind_none_no_match {ht : HashTable κ ν} (hWF : WF ht)
    (hG : GoodStrategies ht.keycmp ht.hashFunction) {k : κ}
    (hfind : chainFind ht.keycmp k (bucketOf ht (bucketIdx ht k)) = none) :
    ∀ p ∈ entries ht, ht.keycmp k p.key ≠ 0 := by
  intro p hp hc
  have hbp : p ∈ bucketOf ht (bucketIdx ht p.key) := wf_mem_bucketIdx hWF hp
  have hbi : bucketIdx ht k = bucketIdx ht p.key := by
    rw [bucketIdx, bucketIdx, hG.compat _ _ hc]
  exact chainFind_eq_none.mp hfind p (hbi ▸ hbp) hc

/-- The intermediate table built by put's new-entry branch (before any
auto-rehash) is well-formed. -/
theorem put_insert_WF {ht : HashTable κ ν} {k : κ} {v : ν} (hWF : WF ht)
    (hG : GoodStrategies ht.keycmp ht.hashFunction)
    (hfind : chainFind ht.keycmp k (bucketOf ht (bucketIdx ht k)) = none) :
    WF { ht with
          bucketArray := ht.bucketArray.set (bucketIdx ht k)
            (⟨k, v⟩ :: bucketOf ht (bucketIdx ht k)),
          numOfElements := ht.numOfElements + 1 } := by
  have hblt := bucketIdx_lt hWF k
  have hperm := put_new_array_perm (v := v) hWF (k := k)
  refine ⟨hWF.1, ?_, ?_, ?_, ?_⟩
  · dsimp only
    rw [List.length_set]
    exact hWF.2.1
  · dsimp only [entries]
    rw [hperm.length_eq, List.length_cons]
    have hc := hWF.2.2.1
    push_cast
    omega
  · intro i hi p hp
    dsimp only [bucketOf] at hp
    dsimp only
    dsimp only at hi
    rw [List.length_set] at hi
    by_cases hii : i = bucketIdx ht k
    · subst hii
      rw [getD_set_self _ _ _ _ hblt] at hp
      rcases List.mem_cons.mp hp with hpe | hpo
      · rw [hpe]; rfl
      · exact hWF.2.2.2.1 _ hi p hpo
    · rw [getD_set_ne _ _ _ _ _ hii] at hp
      exact hWF.2.2.2.1 _ hi p hp
  · dsimp only [entries]
    apply (hperm.pairwise_iff fun h => ⟨h.2, h.1⟩).mpr
    apply List.pairwise_cons.mpr
    refine ⟨?_, hWF.2.2.2.2⟩
    intro q hq
    have h1 : ht.keycmp k q.key ≠ 0 := chainFind_none_no_match hWF hG hfind q hq
    refine ⟨h1, fun h2 => h1 (hG.symm _ _ h2)⟩

/-- The table built by put's found branch is well-formed. -/
theorem put_replace_WF {ht : HashTable κ ν} {k : κ} {v : ν}
    {m : KeyValuePair κ ν} (hWF : WF ht)
    (hG : GoodStrategies ht.keycmp ht.hashFunction)
    (hfind : chainFind ht.keycmp k (bucketOf ht (bucketIdx ht k)) = some m) :
    WF { ht with
          bucketArray := ht.bucketArray.set (bucketIdx ht k)
            (chainReplace ht.keycmp k v (bucketOf ht (bucketIdx ht k))) } := by
  have hblt := bucketIdx_lt hWF k
  have hperm := put_found_array_perm (v := v) hWF hfind
  have hmbk : m ∈ bucketOf ht (bucketIdx ht k) := (chainFind_eq_some hfind).1
  have hme : m ∈ entries ht := bucketOf_subset_entries hblt hmbk
  have hmcmp : ht.keycmp k m.key = 0 := (chainFind_eq_some hfind).2
  have hnd := wf_nodup hWF hG
  refine ⟨hWF.1, ?_, ?_, ?_, ?_⟩
  · dsimp only
    rw [List.length_set]
    exact hWF.2.1
  · dsimp only [entries]
    rw [hperm.length_eq, List.length_cons, List.length_erase_of_mem hme]
    have hc := hWF.2.2.1
    have hpos : 0 < (entries ht).length := List.length_pos_of_mem hme
    push_cast
    omega
  · intro i hi p hp
    dsimp only [bucketOf] at hp
    dsimp only
    dsimp only at hi
    rw [List.length_set] at hi
    by_cases hii : i = bucketIdx ht k
    · subst hii
      rw [getD_set_self _ _ _ _ hblt] at hp
      rcases chainReplace_subset hp with hpe | hpo
      · rw [hpe]; rfl
      · exact hWF.2.2.2.1 _ hi p hpo
    · rw [getD_set_ne _ _ _ _ _ hii] at hp
      exact hWF.2.2.2.1 _ hi p hp
  · dsimp only [entries]
    apply (hperm.pairwise_iff fun h => ⟨h.2, h.1⟩).mpr
    apply List.pairwise_cons.mpr
    constructor
    · intro q hq
      have hqe : q ∈ entries ht := List.mem_of_mem_erase hq
      have hqm : q ≠ m := (hnd.mem_erase_iff.mp hq).1
      have h1 : ht.keycmp k q.key ≠ 0 := fun h0 =>
        hqm (wf_unique hWF hG hqe hme h0 hmcmp)
      exact ⟨h1, fun h2 => h1 (hG.symm _ _ h2)⟩
    · exact hWF.2.2.2.2.sublist (List.erase_sublist m (entries ht))

/-- HashTablePut preserves the representation invariant. -/
theorem put_WF (a b : Bool) {ht : HashTable κ ν} (k : κ) (v : ν) (hWF : WF ht)
    (hG : GoodStrategies ht.keycmp ht.hashFunction) :
    WF (HashTablePut a b ht k v).2 := by
  simp only [HashTablePut]
  cases hfind : chainFind ht.keycmp k (bucketOf ht (bucketIdx ht k)) with
  | some m => exact put_replace_WF hWF hG hfind
  | none =>
      cases a with
      | false => exact hWF
      | true =>
          simp only [if_true]
          split
          · exact rehash_WF b _ 0 (put_insert_WF hWF hG hfind)
          · exact put_insert_WF hWF hG hfind

/-- Entries of a put with a successfully allocated entry: the new pair plus
every old entry whose key does not compare equal. -/
theorem put_mem_iff (b : Bool) {ht : HashTable κ ν} {k : κ} {v : ν}
    (hWF : WF ht) (hG : GoodStrategies ht.keycmp ht.hashFunction)
    (p : KeyValuePair κ ν) :
    p ∈ entries (HashTablePut true b ht k v).2 ↔
      p = ⟨k, v⟩ ∨ (p ∈ entries ht ∧ ht.keycmp k p.key ≠ 0) := by
  have hblt := bucketIdx_lt hWF k
  simp only [HashTablePut]
  cases hfind : chainFind ht.keycmp k (bucketOf ht (bucketIdx ht k)) with
  | some m =>
      have hperm := put_found_array_perm (v := v) hWF hfind
      have hmbk : m ∈ bucketOf ht (bucketIdx ht k) := (chainFind_eq_some hfind).1
      have hme : m ∈ entries ht := bucketOf_subset_entries hblt hmbk
      have hmcmp : ht.keycmp k m.key = 0 := (chainFind_eq_some hfind).2
      have hnd := wf_nodup hWF hG
      constructor
      · intro hp
        have hp2 : p ∈ (⟨k, v⟩ :: (entries ht).erase m : List (KeyValuePair κ ν)) :=
          hperm.mem_iff.mp hp
        rcases List.mem_cons.mp hp2 with hpe | hpo
        · exact Or.inl hpe
        · have hpent : p ∈ entries ht := List.mem_of_mem_erase hpo
          have hpm : p ≠ m := (hnd.mem_erase_iff.mp hpo).1
          exact Or.inr ⟨hpent, fun h0 => hpm (wf_unique hWF hG hpent hme h0 hmcmp)⟩
      · intro hp
        apply hperm.mem_iff.mpr
        rcases hp with hpe | ⟨hpent, hpne⟩
        · exact List.mem_cons.mpr (Or.inl hpe)
        · apply List.mem_cons.mpr
          refine Or.inr (hnd.mem_erase_iff.mpr ⟨?_, hpent⟩)
          intro he
          exact hpne (he ▸ hmcmp)
  | none =>
      simp only [if_true]
      have hmem : ∀ q : KeyValuePair κ ν,
          q ∈ entries { ht with
            bucketArray := ht.bucketArray.set (bucketIdx ht k)
              (⟨k, v⟩ :: bucketOf ht (bucketIdx ht k)),
            numOfElements := ht.numOfElements + 1 } ↔
            q = ⟨k, v⟩ ∨ q ∈ entries ht := by
        intro q
        have hperm := put_new_array_perm (v := v) hWF (k := k)
        constructor
        · intro hq
          exact List.mem_cons.mp (hperm.mem_iff.mp hq)
        · intro hq
          exact hperm.mem_iff.mpr (List.mem_cons.mpr hq)
      have hstep : ∀ q : KeyValuePair κ ν,
          (q = ⟨k, v⟩ ∨ q ∈ entries ht) ↔
            (q = ⟨k, v⟩ ∨ (q ∈ entries ht ∧ ht.keycmp k q.key ≠ 0)) := by
        intro q
        constructor
        · rintro (h | h)
          · exact Or.inl h
          · exact Or.inr ⟨h, chainFind_none_no_match hWF hG hfind q h⟩
        · rintro (h | h)
          · exact Or.inl h
          · exact Or.inr h.1
      split
      · rename_i hcond
        have hrper := rehash_entries_perm b
          { ht with
            bucketArray := ht.bucketArray.set (bucketIdx ht k)
              (⟨k, v⟩ :: bucketOf ht (bucketIdx ht k)),
            numOfElements := ht.numOfElements + 1 } 0
        rw [Iff.comm, ← hstep p, ← hmem p]
        exact ⟨fun h => hrper.mem_iff.mpr h, fun h => hrper.mem_iff.mp h⟩
      · rw [Iff.comm, ← hstep p, ← hmem p]

/-- HashTablePut followed by HashTableGet: the probe sees the new value
exactly when it compares equal to the stored key, and is otherwise
untouched. -/
theorem put_get (b : Bool) {ht : HashTable κ ν} (k : κ) (v : ν) (hWF : WF ht)
    (hG : GoodStrategies ht.keycmp ht.hashFunction) (q : κ) :
    HashTableGet (HashTablePut true b ht k v).2 q =
      if ht.keycmp q k = 0 then some v else HashTableGet ht q := by
  have rWF := put_WF true b k v hWF hG
  have rf := put_fields true b ht k v
  have rG : GoodStrategies (HashTablePut true b ht k v).2.keycmp
      (HashTablePut true b ht k v).2.hashFunction := by
    rw [rf.1, rf.2.2.1]; exact hG
  by_cases hc : ht.keycmp q k = 0
  · rw [if_pos hc]
    apply (get_eq_some_iff rWF rG).mpr
    refine ⟨⟨k, v⟩, (put_mem_iff b hWF hG _).mpr (Or.inl rfl), ?_, rfl⟩
    rw [rf.1]
    exact hc
  · rw [if_neg hc]
    cases hget : HashTableGet ht q with
    | some w =>
        rcases (get_eq_some_iff hWF hG).mp hget with ⟨p, hp, hcp, hv⟩
        apply (get_eq_some_iff rWF rG).mpr
        have hkp : ht.keycmp k p.key ≠ 0 := by
          intro h0
          exact hc (hG.trans _ _ _ hcp (hG.symm _ _ h0))
        refine ⟨p, (put_mem_iff b hWF hG _).mpr (Or.inr ⟨hp, hkp⟩), ?_, hv⟩
        rw [rf.1]
        exact hcp
    | none =>
        apply (get_eq_none_iff rWF rG).mpr
        intro p hp
        rw [rf.1]
        rcases (put_mem_iff b hWF hG _).mp hp with hpe | ⟨hpent, _⟩
        · intro h0
          apply hc
          rw [hpe] at h0
          exact h0
        · exact (get_eq_none_iff hWF hG).mp hget p hpent

/-- Size effect of put on an existing key: unchanged. -/
theorem put_size_existing (a b : Bool) {ht : HashTable κ ν} {k : κ} (v : ν)
    (hWF : WF ht) (hG : GoodStrategies ht.keycmp ht.hashFunction)
    (hex : ∃ p ∈ entries ht, ht.keycmp k p.key = 0) :
    (HashTablePut a b ht k v).2.numOfElements = ht.numOfElements := by
  rcases (exists_match_iff_chainFind hWF hG k).mp hex with ⟨m, hm⟩
  simp only [HashTablePut, hm]

/-- Size effect of put on a new key with a successful allocation: exactly
one more element. -/
theorem put_size_new (b : Bool) {ht : HashTable κ ν} {k : κ} (v : ν)
    (hWF : WF ht) (hG : GoodStrategies ht.keycmp ht.hashFunction)
    (hnone : ∀ p ∈ entries ht, ht.keycmp k p.key ≠ 0) :
    (HashTablePut true b ht k v).2.numOfElements = ht.numOfElements + 1 := by
  have hblt := bucketIdx_lt hWF k
  have hfind : chainFind ht.keycmp k (bucketOf ht (bucketIdx ht k)) = none :=
    chainFind_eq_none.mpr fun p hp => hnone p (bucketOf_subset_entries hblt hp)
  simp only [HashTablePut, hfind, if_true]
  split
  · exact (rehash_fields b _ 0).1
  · rfl

end PutCoreLemmas

section RemoveLemmas

variable {κ ν : Type} [DecidableEq κ] [DecidableEq ν]

/-- chainRemove introduces nothing new. -/
theorem chainRemove_subset {cmp : κ → κ → Int} {key : κ}
    {l : List (KeyValuePair κ ν)} {p : KeyValuePair κ ν}
    (hp : p ∈ chainRemove cmp key l) : p ∈ l := by
  induction l with
  | nil => simp [chainRemove] at hp
  | cons q rest ih =>
      by_cases hq : cmp key q.key = 0
      · simp only [chainRemove, if_pos hq] at hp
        exact List.mem_cons.mpr (Or.inr hp)
      · simp only [chainRemove, if_neg hq] at hp
        rcases List.mem_cons.mp hp with h | h
        · exact List.mem_cons.mpr (Or.inl h)
        · exact List.mem_cons.mpr (Or.inr (ih h))

/-- HashTableRemove never changes the strategies or ratio configuration. -/
theorem remove_fields (a : Bool) (ht : HashTable κ ν) (k : κ) :
    (HashTableRemove a ht k).keycmp = ht.keycmp ∧
    (HashTableRemove a ht k).valuecmp = ht.valuecmp ∧
    (HashTableRemove a ht k).hashFunction = ht.hashFunction ∧
    (HashTableRemove a ht k).idealRatio = ht.idealRatio ∧
    (HashTableRemove a ht k).lowerRehashThreshold = ht.lowerRehashThreshold ∧
    (HashTableRemove a ht k).upperRehashThreshold = ht.upperRehashThreshold := by
  simp only [HashTableRemove]
  cases hfind : chainFind ht.keycmp k (bucketOf ht (bucketIdx ht k)) with
  | none => exact ⟨rfl, rfl, rfl, rfl, rfl, rfl⟩
  | some m =>
      dsimp only
      refine ⟨?_, ?_, ?_, ?_, ?_, ?_⟩ <;> split <;>
        first
          | rfl
          | rw [(rehash_fields a _ 0).2.1]
          | rw [(rehash_fields a _ 0).2.2.1]
          | rw [(rehash_fields a _ 0).2.2.2.1]
          | rw [(rehash_fields a _ 0).2.2.2.2.1]
          | rw [(rehash_fields a _ 0).2.2.2.2.2.1]
          | rw [(rehash_fields a _ 0).2.2.2.2.2.2]

/-- Array-level effect of a successful remove: exactly the found entry
disappears from the flattened view. -/
theorem remove_found_array_perm {ht : HashTable κ ν} {k : κ}
    {m : KeyValuePair κ ν} (hWF : WF ht)
    (hfind : chainFind ht.keycmp k (bucketOf ht (bucketIdx ht k)) = some m) :
    (ht.bucketArray.set (bucketIdx ht k)
        (chainRemove ht.keycmp k (bucketOf ht (bucketIdx ht k)))).flatten
      ~ (entries ht).erase m := by
  have hblt := bucketIdx_lt hWF k
  have hmmem : m ∈ bucketOf ht (bucketIdx ht k) := (chainFind_eq_some hfind).1
  have h1 := flatten_set_perm ht.bucketArray (bucketIdx ht k)
    (chainRemove ht.keycmp k (bucketOf ht (bucketIdx ht k))) hblt
  have h2 := entries_perm_bucket ht (bucketIdx ht k) hblt
  have h3 := chainRemove_perm hfind
  calc (ht.bucketArray.set (bucketIdx ht k)
          (chainRemove ht.keycmp k (bucketOf ht (bucketIdx ht k)))).flatten
      ~ chainRemove ht.keycmp k (bucketOf ht (bucketIdx ht k)) ++
          (ht.bucketArray.set (bucketIdx ht k) []).flatten := h1
    _ ~ (bucketOf ht (bucketIdx ht k)).erase m ++
          (ht.bucketArray.set (bucketIdx ht k) []).flatten := h3.append_right _
    _ = (bucketOf ht (bucketIdx ht k) ++
          (ht.bucketArray.set (bucketIdx ht k) []).flatten).erase m := by
        rw [List.erase_append_left _ hmmem]
    _ ~ (entries ht).erase m := (h2.erase m).symm

/-- The intermediate table built by remove's found branch is well-formed. -/
theorem remove_unlink_WF {ht : HashTable κ ν} {k : κ}
    {m : KeyValuePair κ ν} (hWF : WF ht)
    (hfind : chainFind ht.keycmp k (bucketOf ht (bucketIdx ht k)) = some m) :
    WF { ht with
          bucketArray := ht.bucketArray.set (bucketIdx ht k)
            (chainRemove ht.keycmp k (bucketOf ht (bucketIdx ht k))),
          numOfElements := ht.numOfElements - 1 } := by
  have hblt := bucketIdx_lt hWF k
  have hperm := remove_found_array_perm hWF hfind
  have hme : m ∈ entries ht :=
    bucketOf_subset_entries hblt (chainFind_eq_some hfind).1
  refine ⟨hWF.1, ?_, ?_, ?_, ?_⟩
  · dsimp only
    rw [List.length_set]
    exact hWF.2.1
  · dsimp only [entries]
    rw [hperm.length_eq, List.length_erase_of_mem hme]
    have hc := hWF.2.2.1
    have hpos : 0 < (entries ht).length := List.length_pos_of_mem hme
    push_cast
    omega
  · intro i hi p hp
    dsimp only [bucketOf] at hp
    dsimp only
    dsimp only at hi
    rw [List.length_set] at hi
    by_cases hii : i = bucketIdx ht k
    · subst hii
      rw [getD_set_self _ _ _ _ hblt] at hp
      exact hWF.2.2.2.1 _ hi p (chainRemove_subset hp)
    · rw [getD_set_ne _ _ _ _ _ hii] at hp
      exact hWF.2.2.2.1 _ hi p hp
  · dsimp only [entries]
    apply (hperm.pairwise_iff fun h => ⟨h.2, h.1⟩).mpr
    exact hWF.2.2.2.2.sublist (List.erase_sublist m (entries ht))

/-- HashTableRemove preserves the representation invariant. -/
theorem remove_WF (a : Bool) {ht : HashTable κ ν} (k : κ) (hWF : WF ht) :
    WF (HashTableRemove a ht k) := by
  simp only [HashTableRemove]
  cases hfind : chainFind ht.keycmp k (bucketOf ht (bucketIdx ht k)) with
  | none => exact hWF
  | some m =>
      dsimp only
      split
      · exact rehash_WF a _ 0 (remove_unlink_WF hWF hfind)
      · exact remove_unlink_WF hWF hfind

/-- Entries after remove: every old entry whose key does not compare equal. -/
theorem remove_mem_iff (a : Bool) {ht : HashTable κ ν} {k : κ}
    (hWF : WF ht) (hG : GoodStrategies ht.keycmp ht.hashFunction)
    (p : KeyValuePair κ ν) :
    p ∈ entries (HashTableRemove a ht k) ↔
      p ∈ entries ht ∧ ht.keycmp k p.key ≠ 0 := by
  have hblt := bucketIdx_lt hWF k
  simp only [HashTableRemove]
  cases hfind : chainFind ht.keycmp k (bucketOf ht (bucketIdx ht k)) with
  | none =>
      exact ⟨fun hp => ⟨hp, chainFind_none_no_match hWF hG hfind p hp⟩,
        fun hp => hp.1⟩
  | some m =>
      have hperm := remove_found_array_perm hWF hfind
      have hme : m ∈ entries ht :=
        bucketOf_subset_entries hblt (chainFind_eq_some hfind).1
      have hmcmp : ht.keycmp k m.key = 0 := (chainFind_eq_some hfind).2
      have hnd := wf_nodup hWF hG
      have hmem : ∀ q : KeyValuePair κ ν,
          q ∈ entries { ht with
            bucketArray := ht.bucketArray.set (bucketIdx ht k)
              (chainRemove ht.keycmp k (bucketOf ht (bucketIdx ht k))),
            numOfElements := ht.numOfElements - 1 } ↔
            (q ∈ entries ht ∧ ht.keycmp k q.key ≠ 0) := by
        intro q
        constructor
        · intro hq
          have hq2 : q ∈ (entries ht).erase m := hperm.mem_iff.mp hq
          have hqe : q ∈ entries ht := List.mem_of_mem_erase hq2
          have hqm : q ≠ m := (hnd.mem_erase_iff.mp hq2).1
          exact ⟨hqe, fun h0 => hqm (wf_unique hWF hG hqe hme h0 hmcmp)⟩
        · rintro ⟨hqe, hqne⟩
          apply hperm.mem_iff.mpr
          refine hnd.mem_erase_iff.mpr ⟨?_, hqe⟩
          intro he
          exact hqne (he ▸ hmcmp)
      dsimp only
      split
      · rename_i hcond
        have hrper := rehash_entries_perm a
          { ht with
            bucketArray := ht.bucketArray.set (bucketIdx ht k)
              (chainRemove ht.keycmp k (bucketOf ht (bucketIdx ht k))),
            numOfElements := ht.numOfElements - 1 } 0
        rw [← hmem p]
        exact ⟨fun h => hrper.mem_iff.mp h, fun h => hrper.mem_iff.mpr h⟩
      · exact hmem p

/-- HashTableRemove followed by HashTableGet: the removed key reads as
absent, every other probe is untouched. -/
theorem remove_get (a : Bool) {ht : HashTable κ ν} (k : κ) (hWF : WF ht)
    (hG : GoodStrategies ht.keycmp ht.hashFunction) (q : κ) :
    HashTableGet (HashTableRemove a ht k) q =
      if ht.keycmp q k = 0 then none else HashTableGet ht q := by
  have rWF := remove_WF a k hWF
  have rf := remove_fields a ht k
  have rG : GoodStrategies (HashTableRemove a ht k).keycmp
      (HashTableRemove a ht k).hashFunction := by
    rw [rf.1, rf.2.2.1]; exact hG
  by_cases hc : ht.keycmp q k = 0
  · rw [if_pos hc]
    apply (get_eq_none_iff rWF rG).mpr
    intro p hp
    rw [rf.1]
    rcases (remove_mem_iff a hWF hG p).mp hp with ⟨hpent, hpne⟩
    intro h0
    apply hpne
    exact hG.trans _ _ _ (hG.symm _ _ hc) h0
  · rw [if_neg hc]
    cases hget : HashTableGet ht q with
    | some w =>
        rcases (get_eq_some_iff hWF hG).mp hget with ⟨p, hp, hcp, hv⟩
        apply (get_eq_some_iff rWF rG).mpr
        have hkp : ht.keycmp k p.key ≠ 0 := by
          intro h0
          exact hc (hG.trans _ _ _ hcp (hG.symm _ _ h0))
        refine ⟨p, (remove_mem_iff a hWF hG p).mpr ⟨hp, hkp⟩, ?_, hv⟩
        rw [rf.1]
        exact hcp
    | none =>
        apply (get_eq_none_iff rWF rG).mpr
        intro p hp
        rw [rf.1]
        exact (get_eq_none_iff hWF hG).mp hget p
          ((remove_mem_iff a hWF hG p).mp hp).1

/-- Size effect of removing an existing key: exactly one fewer element. -/
theorem remove_size_existing (a : Bool) {ht : HashTable κ ν} {k : κ}
    (hWF : WF ht) (hG : GoodStrategies ht.keycmp ht.hashFunction)
    (hex : ∃ p ∈ entries ht, ht.keycmp k p.key = 0) :
    (HashTableRemove a ht k).numOfElements = ht.numOfElements - 1 := by
  rcases (exists_match_iff_chainFind hWF hG k).mp hex with ⟨m, hm⟩
  simp only [HashTableRemove, hm]
  split
  · exact (rehash_fields a _ 0).1
  · rfl

/-- Removing a key that matches nothing is the identity on the table. -/
theorem remove_missing_eq (a : Bool) {ht : HashTable κ ν} {k : κ}
    (hWF : WF ht) (hG : GoodStrategies ht.keycmp ht.hashFunction)
    (hnone : ∀ p ∈ entries ht, ht.keycmp k p.key ≠ 0) :
    HashTableRemove a ht k = ht := by
  have hblt := bucketIdx_lt hWF k
  have hfind : chainFind ht.keycmp k (bucketOf ht (bucketIdx ht k)) = none :=
    chainFind_eq_none.mpr fun p hp => hnone p (bucketOf_subset_entries hblt hp)
  simp only [HashTableRemove, hfind]

end RemoveLemmas

section IteratorDefs

variable {κ ν : Type}

/-- HashTableIterator from hashtable.c: the current bucket index and the
chain suffix whose head is the current pair (empty list = NULL pair). -/
structure HashTableIterator (κ ν : Type) where
  bucket : Nat
  pair : List (KeyValuePair κ ν)
deriving DecidableEq

/-- Scan loop of hashTableGetFirst: find the first non-empty bucket at or
after b and return an iterator positioned at its head pair. -/
def firstFrom (t : HashTable κ ν) (b : Nat) :
    Option (HashTableIterator κ ν × κ × ν) :=
  if h : b < t.numOfBuckets then
    match t.bucketArray.getD b [] with
    | [] => firstFrom t (b + 1)
    | p :: rest => some (⟨b, p :: rest⟩, p.key, p.value)
  else none
termination_by t.numOfBuckets - b

/-- hashTableGetFirst from hashtable.c: start the bucket scan at index 0;
none models the NULL iterator of an empty table. -/
def hashTableGetFirst (t : HashTable κ ν) :
    Option (HashTableIterator κ ν × κ × ν) :=
  firstFrom t 0

/-- While loop of hashTableGetNext: with the pair pointer already advanced,
fall through empty chain tails into subsequent buckets. -/
def nextFrom (t : HashTable κ ν) (b : Nat) (pr : List (KeyValuePair κ ν)) :
    Option (HashTableIterator κ ν × κ × ν) :=
  if h : b < t.numOfBuckets then
    match pr with
    | [] =>
        if h2 : b + 1 < t.numOfBuckets then
          nextFrom t (b + 1) (t.bucketArray.getD (b + 1) [])
        else none
    | p :: rest => some (⟨b, p :: rest⟩, p.key, p.value)
  else none
termination_by t.numOfBuckets - b

/-- hashTableGetNext from hashtable.c: advance the pair pointer to its next
and resume the scan; none models the retired NULL iterator. -/
def hashTableGetNext (t : HashTable κ ν) (iter : HashTableIterator κ ν) :
    Option (HashTableIterator κ ν × κ × ν) :=
  nextFrom t iter.bucket iter.pair.tail

/-- Every iterator nextFrom hands back either moved to a later bucket or
stands on the same still non-empty suffix. -/
theorem nextFrom_out {t : HashTable κ ν} (n : Nat) :
    ∀ b pr it kk vv, t.numOfBuckets - b ≤ n →
      nextFrom t b pr = some (it, kk, vv) →
      b < it.bucket ∨ (it.bucket = b ∧ it.pair = pr ∧ pr ≠ []) := by
  induction n with
  | zero =>
      intro b pr it kk vv hle h
      unfold nextFrom at h
      rw [dif_neg (by omega)] at h
      cases h
  | succ m ih =>
      intro b pr it kk vv hle h
      unfold nextFrom at h
      by_cases hb : b < t.numOfBuckets
      · rw [dif_pos hb] at h
        cases pr with
        | nil =>
            by_cases hb2 : b + 1 < t.numOfBuckets
            · rw [dif_pos hb2] at h
              rcases ih (b + 1) _ it kk vv (by omega) h with h1 | ⟨h1, _, _⟩
              · exact Or.inl (by omega)
              · exact Or.inl (by omega)
            · rw [dif_neg hb2] at h
              cases h
        | cons p rest =>
            simp only [Option.some.injEq, Prod.mk.injEq] at h
            refine Or.inr ⟨?_, ?_, by simp⟩
            · rw [← h.1]
            · rw [← h.1]
      · rw [dif_neg hb] at h
        cases h

/-- A successful nextFrom can only start inside the bucket range. -/
theorem nextFrom_isSome_lt {t : HashTable κ ν} {b : Nat}
    {pr : List (KeyValuePair κ ν)} {x : HashTableIterator κ ν × κ × ν}
    (h : nextFrom t b pr = some x) : b < t.numOfBuckets := by
  by_cases hb : b < t.numOfBuckets
  · exact hb
  · unfold nextFrom at h
    rw [dif_neg hb] at h
    cases h

/-- Entries delivered by repeatedly calling hashTableGetNext from a given
iterator onward. -/
def iterFrom (t : HashTable κ ν) (it : HashTableIterator κ ν) : List (κ × ν) :=
  match h : hashTableGetNext t it with
  | none => []
  | some (it2, k, v) => (k, v) :: iterFrom t it2
termination_by (t.numOfBuckets - it.bucket, it.pair.length)
decreasing_by
  have hout := nextFrom_out (t := t) (t.numOfBuckets - it.bucket) it.bucket
    it.pair.tail it2 k v (le_refl _) h
  have hblt : it.bucket < t.numOfBuckets := nextFrom_isSome_lt h
  rcases hout with h1 | ⟨h1, h2, h3⟩
  · exact Prod.Lex.left _ _ (by omega)
  · rw [h1, h2]
    apply Prod.Lex.right
    have hne : it.pair ≠ [] := by
      intro he
      rw [he] at h3
      exact h3 rfl
    cases hp : it.pair with
    | nil => exact absurd hp hne
    | cons q qs => simp [hp]

/-- Full first/next iteration of a table, as the list of visited pairs. -/
def iterList (t : HashTable κ ν) : List (κ × ν) :=
  match hashTableGetFirst t with
  | none => []
  | some (it, k, v) => (k, v) :: iterFrom t it

/-- Pure reference traversal: walk the remaining chain of bucket b, then all
later buckets in ascending order. -/
def iterTail (t : HashTable κ ν) (b : Nat) (pr : List (KeyValuePair κ ν)) :
    List (κ × ν) :=
  if h : b < t.numOfBuckets then
    match pr with
    | p :: rest => (p.key, p.value) :: iterTail t b rest
    | [] =>
        if h2 : b + 1 < t.numOfBuckets then
          iterTail t (b + 1) (t.bucketArray.getD (b + 1) [])
        else []
  else []
termination_by (t.numOfBuckets - b, pr.length)
decreasing_by
  · apply Prod.Lex.right
    simp
  · exact Prod.Lex.left _ _ (by omega)

end IteratorDefs

section IteratorStepLemmas

variable {κ ν : Type} {t : HashTable κ ν}

theorem nextFrom_stop {b : Nat} {pr : List (KeyValuePair κ ν)}
    (hb : ¬ b < t.numOfBuckets) : nextFrom t b pr = none := by
  unfold nextFrom
  rw [dif_neg hb]

theorem nextFrom_cons {b : Nat} (hb : b < t.numOfBuckets)
    (p : KeyValuePair κ ν) (rest : List (KeyValuePair κ ν)) :
    nextFrom t b (p :: rest) = some (⟨b, p :: rest⟩, p.key, p.value) := by
  unfold nextFrom
  rw [dif_pos hb]

theorem nextFrom_nil_step {b : Nat} (hb : b < t.numOfBuckets)
    (hb2 : b + 1 < t.numOfBuckets) :
    nextFrom t b ([] : List (KeyValuePair κ ν)) =
      nextFrom t (b + 1) (t.bucketArray.getD (b + 1) []) := by
  conv_lhs => rw [nextFrom]
  rw [dif_pos hb]
  exact dif_pos hb2

theorem nextFrom_nil_stop {b : Nat} (hb : b < t.numOfBuckets)
    (hb2 : ¬ b + 1 < t.numOfBuckets) :
    nextFrom t b ([] : List (KeyValuePair κ ν)) = none := by
  conv_lhs => rw [nextFrom]
  rw [dif_pos hb]
  exact dif_neg hb2

theorem firstFrom_stop {b : Nat} (hb : ¬ b < t.numOfBuckets) :
    firstFrom t b = none := by
  unfold firstFrom
  rw [dif_neg hb]

theorem firstFrom_nil {b : Nat} (hb : b < t.numOfBuckets)
    (hchain : t.bucketArray.getD b [] = []) :
    firstFrom t b = firstFrom t (b + 1) := by
  conv_lhs => rw [firstFrom]
  rw [dif_pos hb, hchain]

theorem firstFrom_cons {b : Nat} (hb : b < t.numOfBuckets)
    {p : KeyValuePair κ ν} {rest : List (KeyValuePair κ ν)}
    (hchain : t.bucketArray.getD b [] = p :: rest) :
    firstFrom t b = some (⟨b, p :: rest⟩, p.key, p.value) := by
  conv_lhs => rw [firstFrom]
  rw [dif_pos hb, hchain]

theorem iterTail_stop {b : Nat} {pr : List (KeyValuePair κ ν)}
    (hb : ¬ b < t.numOfBuckets) : iterTail t b pr = [] := by
  unfold iterTail
  rw [dif_neg hb]

theorem iterTail_cons {b : Nat} (hb : b < t.numOfBuckets)
    (p : KeyValuePair κ ν) (rest : List (KeyValuePair κ ν)) :
    iterTail t b (p :: rest) = (p.key, p.value) :: iterTail t b rest := by
  conv_lhs => rw [iterTail]
  rw [dif_pos hb]

theorem iterTail_nil_step {b : Nat} (hb : b < t.numOfBuckets)
    (hb2 : b + 1 < t.numOfBuckets) :
    iterTail t b ([] : List (KeyValuePair κ ν)) =
      iterTail t (b + 1) (t.bucketArray.getD (b + 1) []) := by
  conv_lhs => rw [iterTail]
  rw [dif_pos hb]
  exact dif_pos hb2

theorem iterTail_nil_stop {b : Nat} (hb : b < t.numOfBuckets)
    (hb2 : ¬ b + 1 < t.numOfBuckets) :
    iterTail t b ([] : List (KeyValuePair κ ν)) = [] := by
  conv_lhs => rw [iterTail]
  rw [dif_pos hb]
  exact dif_neg hb2

theorem iterFrom_unfold (it : HashTableIterator κ ν) :
    iterFrom t it =
      match hashTableGetNext t it with
      | none => []
      | some (it2, k, v) => (k, v) :: iterFrom t it2 := by
  conv_lhs => rw [iterFrom]
  cases hg : hashTableGetNext t it <;> rfl

end IteratorStepLemmas

section IteratorBridge

variable {κ ν : Type}

/-- One step of the first/next protocol agrees with the pure traversal. -/
theorem iterFrom_bridge {t : HashTable κ ν} :
    ∀ n b pr, t.numOfBuckets - b ≤ n →
      (match nextFrom t b pr with
       | none => ([] : List (κ × ν))
       | some (it2, k, v) => (k, v) :: iterFrom t it2) = iterTail t b pr := by
  intro n
  induction n with
  | zero =>
      intro b pr hle
      rw [nextFrom_stop (by omega), iterTail_stop (by omega)]
  | succ m ih =>
      intro b pr hle
      by_cases hb : b < t.numOfBuckets
      · induction pr with
        | nil =>
            by_cases hb2 : b + 1 < t.numOfBuckets
            · rw [nextFrom_nil_step hb hb2, iterTail_nil_step hb hb2]
              exact ih (b + 1) _ (by omega)
            · rw [nextFrom_nil_stop hb hb2, iterTail_nil_stop hb hb2]
        | cons p rest ihr =>
            rw [nextFrom_cons hb p rest, iterTail_cons hb p rest]
            dsimp only
            congr 1
            rw [iterFrom_unfold]
            exact ihr
      · rw [nextFrom_stop hb, iterTail_stop hb]

/-- Resuming the iteration from a handed-out iterator follows the pure
traversal of the advanced pair. -/
theorem iterFrom_eq_iterTail {t : HashTable κ ν} (it : HashTableIterator κ ν) :
    iterFrom t it = iterTail t it.bucket it.pair.tail := by
  rw [iterFrom_unfold]
  exact iterFrom_bridge (t.numOfBuckets - it.bucket) it.bucket it.pair.tail
    (le_refl _)

/-- The full iteration started by the bucket scan agrees with the pure
traversal from that bucket's chain. -/
theorem firstFrom_bridge {t : HashTable κ ν} :
    ∀ n b, t.numOfBuckets - b ≤ n →
      (match firstFrom t b with
       | none => ([] : List (κ × ν))
       | some (it, k, v) => (k, v) :: iterFrom t it)
        = iterTail t b (t.bucketArray.getD b []) := by
  intro n
  induction n with
  | zero =>
      intro b hle
      rw [firstFrom_stop (by omega), iterTail_stop (by omega)]
  | succ m ih =>
      intro b hle
      by_cases hb : b < t.numOfBuckets
      · cases hchain : t.bucketArray.getD b [] with
        | nil =>
            rw [firstFrom_nil hb hchain, ih (b + 1) (by omega)]
            by_cases hb2 : b + 1 < t.numOfBuckets
            · rw [iterTail_nil_step hb hb2]
            · rw [iterTail_nil_stop hb hb2, iterTail_stop hb2]
        | cons p rest =>
            rw [firstFrom_cons hb hchain, iterTail_cons hb]
            dsimp only
            congr 1
            rw [iterFrom_eq_iterTail]
            rfl
      · rw [firstFrom_stop hb, iterTail_stop hb]

/-- iterList is the pure traversal started at bucket 0. -/
theorem iterList_eq_iterTail (t : HashTable κ ν) :
    iterList t = iterTail t 0 (t.bucketArray.getD 0 []) :=
  firstFrom_bridge t.numOfBuckets 0 (by omega)

/-- The pure traversal maps the remaining chain first. -/
theorem iterTail_chain_append {t : HashTable κ ν} {b : Nat}
    (hb : b < t.numOfBuckets) :
    ∀ chain : List (KeyValuePair κ ν),
      iterTail t b chain =
        chain.map (fun p => (p.key, p.value)) ++ iterTail t b [] := by
  intro chain
  induction chain with
  | nil => simp
  | cons p rest ihc =>
      rw [iterTail_cons hb p rest, ihc]
      simp

/-- The pure traversal from bucket b visits exactly the flattening of the
buckets from b on, in order. -/
theorem iterTail_eq_flatten {t : HashTable κ ν}
    (hlen : t.bucketArray.length = t.numOfBuckets) :
    ∀ n b, t.numOfBuckets - b ≤ n →
      iterTail t b (t.bucketArray.getD b []) =
        ((t.bucketArray.drop b).flatten).map (fun p => (p.key, p.value)) := by
  intro n
  induction n with
  | zero =>
      intro b hle
      rw [iterTail_stop (by omega), List.drop_eq_nil_of_le (by omega)]
      rfl
  | succ m ih =>
      intro b hle
      by_cases hb : b < t.numOfBuckets
      · have hblen : b < t.bucketArray.length := by omega
        have hdrop : t.bucketArray.drop b =
            t.bucketArray[b] :: t.bucketArray.drop (b + 1) :=
          List.drop_eq_getElem_cons hblen
        have hgetD : t.bucketArray.getD b [] = t.bucketArray[b] :=
          List.getD_eq_getElem _ _ hblen
        rw [iterTail_chain_append hb, hdrop]
        rw [List.flatten_cons, List.map_append, hgetD]
        congr 1
        by_cases hb2 : b + 1 < t.numOfBuckets
        · rw [iterTail_nil_step hb hb2]
          exact ih (b + 1) (by omega)
        · rw [iterTail_nil_stop hb hb2, List.drop_eq_nil_of_le (by omega)]
          rfl
      · rw [iterTail_stop hb, List.drop_eq_nil_of_le (by omega)]
        rfl

/-- The complete first/next iteration of a table whose bucket array matches
its bucket count visits exactly the entries view, in its order. -/
theorem iterList_eq_entries_map {t : HashTable κ ν}
    (hlen : t.bucketArray.length = t.numOfBuckets) :
    iterList t = (entries t).map (fun p => (p.key, p.value)) := by
  rw [iterList_eq_iterTail, iterTail_eq_flatten hlen t.numOfBuckets 0 (by omega)]
  rw [List.drop_zero]
  rfl

end IteratorBridge

section RemoveAllLemmas

variable {κ ν : Type}

/-- Emptying every bucket leaves nothing to flatten. -/
theorem map_nil_flatten (arr : List (List (KeyValuePair κ ν))) :
    (arr.map fun _ => ([] : List (KeyValuePair κ ν))).flatten = [] := by
  induction arr with
  | nil => rfl
  | cons c cs ih => simpa using ih

/-- Every bucket of the emptied array reads as empty. -/
theorem getD_map_nil (arr : List (List (KeyValuePair κ ν))) (i : Nat) :
    (arr.map fun _ => ([] : List (KeyValuePair κ ν))).getD i [] = [] := by
  induction arr generalizing i with
  | nil => rfl
  | cons c cs ih =>
      cases i with
      | zero => rfl
      | succ j => exact ih j

/-- The cleared table produced inside HashTableRemoveAll is well-formed. -/
theorem removeAll_cleared_WF {ht : HashTable κ ν} (hWF : WF ht) :
    WF { ht with
          bucketArray := ht.bucketArray.map fun _ => [],
          numOfElements := 0 } := by
  refine ⟨hWF.1, ?_, ?_, ?_, ?_⟩
  · dsimp only
    rw [List.length_map]
    exact hWF.2.1
  · dsimp only [entries]
    rw [map_nil_flatten]
    rfl
  · intro i hi p hp
    dsimp only [bucketOf] at hp
    rw [getD_map_nil] at hp
    cases hp
  · dsimp only [entries]
    rw [map_nil_flatten]
    exact List.Pairwise.nil

/-- HashTableRemoveAll preserves the representation invariant. -/
theorem removeAll_WF (a : Bool) {ht : HashTable κ ν} (hWF : WF ht) :
    WF (HashTableRemoveAll a ht).1 :=
  rehash_WF a _ 5 (removeAll_cleared_WF hWF)

/-- A successful explicit rehash really moves to the requested count. -/
theorem rehash_numOfBuckets (ht : HashTable κ ν) (n : Nat) (hn : n ≠ 0) :
    (HashTableRehash true ht n).numOfBuckets = n := by
  simp only [HashTableRehash]
  have htarget : rehashTarget ht n = n := by
    unfold rehashTarget
    rw [if_neg hn]
  rw [htarget]
  split
  · rename_i h
    exact h.symm
  · simp only [if_true]

end RemoveAllLemmas

section OperationSequences

variable {κ ν : Type}

/-- One mutating operation of the table's interface, with the outcomes of
its internal allocations made explicit. -/
inductive TableOp (κ ν : Type) where
  | put (entryAlloc rehashAlloc : Bool) (key : κ) (value : ν)
  | remove (rehashAlloc : Bool) (key : κ)
  | removeAll (rehashAlloc : Bool)
  | rehash (allocOk : Bool) (numOfBuckets : Nat)

/-- Application of one operation to the table state. -/
def applyOp (ht : HashTable κ ν) : TableOp κ ν → HashTable κ ν
  | .put a b k v => (HashTablePut a b ht k v).2
  | .remove a k => HashTableRemove a ht k
  | .removeAll a => (HashTableRemoveAll a ht).1
  | .rehash a n => HashTableRehash a ht n

/-- Application of a whole operation sequence. -/
def applyOps (ht : HashTable κ ν) (ops : List (TableOp κ ν)) : HashTable κ ν :=
  ops.foldl applyOp ht

/-- No table operation replaces the configured strategies. -/
theorem applyOp_strategies [DecidableEq κ] [DecidableEq ν]
    (ht : HashTable κ ν) (op : TableOp κ ν) :
    (applyOp ht op).keycmp = ht.keycmp ∧
    (applyOp ht op).hashFunction = ht.hashFunction := by
  cases op with
  | put a b k v => exact ⟨(put_fields a b ht k v).1, (put_fields a b ht k v).2.2.1⟩
  | remove a k => exact ⟨(remove_fields a ht k).1, (remove_fields a ht k).2.2.1⟩
  | removeAll a =>
      exact ⟨(rehash_fields a _ 5).2.1, (rehash_fields a _ 5).2.2.2.1⟩
  | rehash a n => exact ⟨(rehash_fields a ht n).2.1, (rehash_fields a ht n).2.2.2.1⟩

/-- One operation preserves the representation invariant (given good
strategies). -/
theorem applyOp_WF [DecidableEq κ] [DecidableEq ν] {ht : HashTable κ ν}
    (op : TableOp κ ν) (hWF : WF ht)
    (hG : GoodStrategies ht.keycmp ht.hashFunction) : WF (applyOp ht op) := by
  cases op with
  | put a b k v => exact put_WF a b k v hWF hG
  | remove a k => exact remove_WF a k hWF
  | removeAll a => exact removeAll_WF a hWF
  | rehash a n => exact rehash_WF a ht n hWF

/-- Any sequence of operations preserves the representation invariant. -/
theorem applyOps_WF [DecidableEq κ] [DecidableEq ν] {ht : HashTable κ ν}
    (ops : List (TableOp κ ν)) (hWF : WF ht)
    (hG : GoodStrategies ht.keycmp ht.hashFunction) : WF (applyOps ht ops) := by
  induction ops generalizing ht with
  | nil => exact hWF
  | cons op rest ih =>
      have hs := applyOp_strategies ht op
      exact ih (applyOp_WF op hWF hG) (by rw [hs.1, hs.2]; exact hG)

/-- Sequence of puts with successful allocations. -/
def putSeq (ht : HashTable κ ν) (ops : List (κ × ν)) : HashTable κ ν :=
  ops.foldl (fun t kv => (HashTablePut true true t kv.1 kv.2).2) ht

/-- Value of the most recent element of the sequence whose key compares
equal to the probe key, if any: the reference result for get after a put
sequence. -/
def lastMatchValue (cmp : κ → κ → Int) (k : κ) (ops : List (κ × ν)) : Option ν :=
  ops.foldl (fun acc kv => if cmp k kv.1 = 0 then some kv.2 else acc) none

/-- get after a put sequence folds put_get over the sequence. -/
theorem get_putSeq [DecidableEq κ] [DecidableEq ν] {ht : HashTable κ ν}
    (ops : List (κ × ν)) (hWF : WF ht)
    (hG : GoodStrategies ht.keycmp ht.hashFunction) (k : κ) :
    HashTableGet (putSeq ht ops) k =
      ops.foldl (fun acc kv => if ht.keycmp k kv.1 = 0 then some kv.2 else acc)
        (HashTableGet ht k) := by
  induction ops generalizing ht with
  | nil => rfl
  | cons kv rest ih =>
      have hf := put_fields true true ht kv.1 kv.2
      have hWF2 := put_WF true true kv.1 kv.2 hWF hG
      have hG2 : GoodStrategies (HashTablePut true true ht kv.1 kv.2).2.keycmp
          (HashTablePut true true ht kv.1 kv.2).2.hashFunction := by
        rw [hf.1, hf.2.2.1]; exact hG
      have hstep := ih hWF2 hG2
      rw [hf.1] at hstep
      show HashTableGet (putSeq (HashTablePut true true ht kv.1 kv.2).2 rest) k = _
      rw [hstep, put_get true kv.1 kv.2 hWF hG k]
      rfl

end OperationSequences

section TrialDivisionFacts

/-- A number accepted by the trial division loop over a sorted positive list
is divisible by a listed divisor only by being that divisor. -/
theorem trialDivide_dvd {n : Int} (hn : 0 < n) :
    ∀ L : List Int, (∀ i ∈ L, 0 < i) → L.Pairwise (· < ·) →
      trialDivide n L = true → ∀ i ∈ L, i ∣ n → n = i := by
  intro L
  induction L with
  | nil => intro _ _ _ i hi; cases hi
  | cons a rest ih =>
      intro hpos hsorted htrue i hi hdvd
      unfold trialDivide at htrue
      by_cases hea : n = a
      · rcases List.mem_cons.mp hi with rfl | hirest
        · exact hea
        · exfalso
          have hai : a < i := (List.pairwise_cons.mp hsorted).1 i hirest
          have hile : i ≤ n := Int.le_of_dvd hn hdvd
          omega
      · by_cases hmod : n % a = 0
        · rw [if_neg hea, if_pos hmod] at htrue
          cases htrue
        · rw [if_neg hea, if_neg hmod] at htrue
          rcases List.mem_cons.mp hi with rfl | hirest
          · exact absurd (Int.emod_eq_zero_of_dvd hdvd) hmod
          · exact ih (fun j hj => hpos j (List.mem_cons.mpr (Or.inr hj)))
              (List.pairwise_cons.mp hsorted).2 htrue i hirest hdvd

/-- The loop's divisor list is positive and strictly ascending. -/
theorem oddTrialDivisors_pos_sorted :
    (∀ i ∈ oddTrialDivisors, 0 < i) ∧ oddTrialDivisors.Pairwise (· < ·) := by
  constructor
  · decide
  · decide

/-- Every odd integer between 3 and 49 is a divisor the loop tries. -/
theorem mem_oddTrialDivisors (i : Int) (h1 : 3 ≤ i) (h2 : i ≤ 49)
    (h3 : i % 2 = 1) : i ∈ oddTrialDivisors := by
  simp only [oddTrialDivisors, List.mem_cons, List.not_mem_nil, or_false]
  omega

end TrialDivisionFacts

/-!
Claim theorems.  A small concrete configuration is used by the witnesses:
keys and values are Fin 4, the comparator is equality as 0/1, the hash is
the key itself, and the table starts with three empty buckets (the upper
threshold is set at the ideal ratio so the auto-rehash comparison short
circuits, as allowed by HashTableSetIdealRatio's documented contract).
-/

def egCmp (a b : Fin 4) : Int := if a = b then 0 else 1

def egHash (a : Fin 4) : Nat := a.val

def egTable : HashTable (Fin 4) (Fin 4) :=
  { bucketArray := [[], [], []]
    numOfBuckets := 3
    numOfElements := 0
    idealRatio := 3
    lowerRehashThreshold := 0
    upperRehashThreshold := 3
    keycmp := egCmp
    valuecmp := egCmp
    hashFunction := egHash }

theorem egTable_WF : WF egTable :=
  ⟨by decide, by decide, by decide, by decide, by decide⟩

theorem egTable_good : GoodStrategies egTable.keycmp egTable.hashFunction :=
  ⟨by decide, by decide, by decide, by decide⟩

/-- C1: for every sequence of put operations on a table whose strategies are
an equivalence comparator with a compatible hash, get(k) returns the value
of the most recent put whose key compares equal to k, and the absent
indicator when no put's key compares equal. -/
theorem claim_C1 {κ ν : Type} [DecidableEq κ] [DecidableEq ν]
    (t0 : HashTable κ ν) (hWF : WF t0) (hempty : entries t0 = [])
    (hG : GoodStrategies t0.keycmp t0.hashFunction)
    (ops : List (κ × ν)) (k : κ) :
    HashTableGet (putSeq t0 ops) k = lastMatchValue t0.keycmp k ops := by
  rw [get_putSeq ops hWF hG k]
  have hnone : HashTableGet t0 k = none :=
    (get_eq_none_iff hWF hG).mpr (by rw [hempty]; intro p hp; cases hp)
  rw [hnone]
  rfl

/-- Witness for C1 on the concrete configuration. -/
theorem claim_C1_witness :
    WF egTable ∧ entries egTable = [] ∧
    HashTableGet (putSeq egTable [(1, 2), (0, 3), (1, 1)]) 1 =
      lastMatchValue egTable.keycmp 1 [(1, 2), (0, 3), (1, 1)] :=
  ⟨egTable_WF, by decide,
    claim_C1 egTable egTable_WF (by decide) egTable_good [(1, 2), (0, 3), (1, 1)] 1⟩

/-- C2: put on an existing key keeps size unchanged; put on a new key (with
the allocation succeeding) adds exactly 1; remove of an existing key
subtracts exactly 1 and makes a subsequent get absent; remove of a missing
key leaves the table unchanged. -/
theorem claim_C2 {κ ν : Type} [DecidableEq κ] [DecidableEq ν]
    (ht : HashTable κ ν) (hWF : WF ht)
    (hG : GoodStrategies ht.keycmp ht.hashFunction) (k : κ) (v : ν) :
    ((∃ p ∈ entries ht, ht.keycmp k p.key = 0) →
        HashTableSize (HashTablePut true true ht k v).2 = HashTableSize ht) ∧
    ((∀ p ∈ entries ht, ht.keycmp k p.key ≠ 0) →
        HashTableSize (HashTablePut true true ht k v).2 = HashTableSize ht + 1) ∧
    ((∃ p ∈ entries ht, ht.keycmp k p.key = 0) →
        HashTableSize (HashTableRemove true ht k) = HashTableSize ht - 1 ∧
        HashTableGet (HashTableRemove true ht k) k = none) ∧
    ((∀ p ∈ entries ht, ht.keycmp k p.key ≠ 0) →
        HashTableRemove true ht k = ht) := by
  refine ⟨?_, ?_, ?_, ?_⟩
  · intro hex
    exact put_size_existing true true v hWF hG hex
  · intro hnone
    exact put_size_new true v hWF hG hnone
  · intro hex
    refine ⟨remove_size_existing true hWF hG hex, ?_⟩
    rw [remove_get true k hWF hG k, if_pos (hG.refl k)]
  · intro hnone
    exact remove_missing_eq true hWF hG hnone

/-- Witness for C2 on the concrete configuration. -/
theorem claim_C2_witness :
    WF egTable ∧
    (((∃ p ∈ entries egTable, egTable.keycmp 2 p.key = 0) →
        HashTableSize (HashTablePut true true egTable 2 2).2 = HashTableSize egTable) ∧
     ((∀ p ∈ entries egTable, egTable.keycmp 2 p.key ≠ 0) →
        HashTableSize (HashTablePut true true egTable 2 2).2 = HashTableSize egTable + 1) ∧
     ((∃ p ∈ entries egTable, egTable.keycmp 2 p.key = 0) →
        HashTableSize (HashTableRemove true egTable 2) = HashTableSize egTable - 1 ∧
        HashTableGet (HashTableRemove true egTable 2) 2 = none) ∧
     ((∀ p ∈ entries egTable, egTable.keycmp 2 p.key ≠ 0) →
        HashTableRemove true egTable 2 = egTable)) :=
  ⟨egTable_WF, claim_C2 egTable egTable_WF egTable_good 2 2⟩

/-- Helper for the C3 counterexample: the concrete effect of one put on a
freshly created two-bucket table with the default strategies.  Key 16 hashes
to 1 under the default pointer hash (16 >> 4 = 1), so the pair lands in
bucket 1, and the load factor 1/2 does not trip the upper threshold 15. -/
theorem putCreate_sixteen_eq : (HashTablePut true true (HashTableCreate 2) 16 7).2 =
    { bucketArray := [[], [⟨16, 7⟩]], numOfBuckets := 2, numOfElements := 1,
      idealRatio := 3, lowerRehashThreshold := 0, upperRehashThreshold := 15,
      keycmp := pointercmp, valuecmp := pointercmp,
      hashFunction := pointerHashFunction } := by
  have hfind : chainFind (HashTableCreate 2).keycmp 16
      (bucketOf (HashTableCreate 2) (bucketIdx (HashTableCreate 2) 16)) = none := by
    rfl
  simp only [HashTablePut, hfind, if_true]
  dsimp only
  split
  · rename_i hcond
    exfalso
    have h2 := hcond.2
    norm_num [HashTableCreate] at h2
  · rfl

/-- Counterexample to C3 as stated: the state reached by create(2), one put
of key 16, and then the strategy setter HashTableSetHashFunction with the
identity hash is reachable by the listed operations but violates the
representation invariant: the entry sits in bucket 1 while
hash(key) mod numOfBuckets is now 16 mod 2 = 0. -/
theorem claim_C3_counterexample :
    ¬ WF (HashTableSetHashFunction
        (HashTablePut true true (HashTableCreate 2) 16 7).2 (fun n => n)) := by
  simp only [HashTableSetHashFunction]
  rw [putCreate_sixteen_eq]
  intro h
  have hplace := h.2.2.2.1 1 (by decide) ⟨16, 7⟩ (by decide)
  exact absurd hplace (by decide)

/-- C3 (amended): the representation invariant (positive bucket count,
element count equal to the total chain length, placement under the current
hash, pairwise comparator-distinct keys) holds in every state reachable from
a well-formed table by create, put, get, remove, removeAll and rehash with
the strategies held fixed, provided the key comparator is an equivalence and
the hash function maps comparator-equal keys to the same hash; the strategy
setters are excluded, since re-pointing the hash or the comparator of a
populated table invalidates placement or uniqueness (see the
counterexample). -/
theorem claim_C3 {κ ν : Type} [DecidableEq κ] [DecidableEq ν]
    (t0 : HashTable κ ν) (hWF : WF t0)
    (hG : GoodStrategies t0.keycmp t0.hashFunction)
    (ops : List (TableOp κ ν)) :
    WF (applyOps t0 ops) :=
  applyOps_WF ops hWF hG

/-- Witness for C3 on the concrete configuration. -/
theorem claim_C3_witness :
    WF egTable ∧
    WF (applyOps egTable
      [TableOp.put true true 1 2, TableOp.rehash true 7, TableOp.remove true 1,
       TableOp.removeAll true]) :=
  ⟨egTable_WF,
    claim_C3 egTable egTable_WF egTable_good
      [TableOp.put true true 1 2, TableOp.rehash true 7, TableOp.remove true 1,
       TableOp.removeAll true]⟩

/-- C4: rehash to any n >= 1 preserves size and every get result, and
rehashing to the current bucket count is a no-op on the whole table state. -/
theorem claim_C4 {κ ν : Type} [DecidableEq κ] [DecidableEq ν]
    (ht : HashTable κ ν) (hWF : WF ht)
    (hG : GoodStrategies ht.keycmp ht.hashFunction) (n : Nat) (hn : 1 ≤ n) :
    HashTableSize (HashTableRehash true ht n) = HashTableSize ht ∧
    (∀ k, HashTableGet (HashTableRehash true ht n) k = HashTableGet ht k) ∧
    (n = ht.numOfBuckets → HashTableRehash true ht n = ht) := by
  refine ⟨(rehash_fields true ht n).1, fun k => rehash_get true ht n hWF hG k, ?_⟩
  intro he
  simp only [HashTableRehash]
  have htarget : rehashTarget ht n = n := by
    unfold rehashTarget
    rw [if_neg (by omega)]
  rw [htarget, if_pos he]

/-- Witness for C4 on the concrete configuration. -/
theorem claim_C4_witness :
    WF egTable ∧ 1 ≤ 7 ∧
    (HashTableSize (HashTableRehash true egTable 7) = HashTableSize egTable ∧
     (∀ k, HashTableGet (HashTableRehash true egTable 7) k = HashTableGet egTable k) ∧
     (7 = egTable.numOfBuckets → HashTableRehash true egTable 7 = egTable)) :=
  ⟨egTable_WF, by decide, claim_C4 egTable egTable_WF egTable_good 7 (by decide)⟩

/-- C5: the full first/next iteration of a well-formed table visits exactly
the table's entries — buckets in ascending index order and each chain from
its head (most recently inserted first), which is precisely the order of the
entries view — so it visits size() pairs, no two visited keys compare equal,
and first on an empty table returns the absent indicator. -/
theorem claim_C5 {κ ν : Type} (t : HashTable κ ν) (hWF : WF t) :
    iterList t = (entries t).map (fun p => (p.key, p.value)) ∧
    ((iterList t).length : Int) = HashTableSize t ∧
    (iterList t).Pairwise
      (fun a b => t.keycmp a.1 b.1 ≠ 0 ∧ t.keycmp b.1 a.1 ≠ 0) ∧
    (entries t = [] → hashTableGetFirst t = none) := by
  have hmap := iterList_eq_entries_map hWF.2.1
  refine ⟨hmap, ?_, ?_, ?_⟩
  · rw [hmap, List.length_map]
    exact hWF.2.2.1.symm
  · rw [hmap]
    exact List.pairwise_map.mpr hWF.2.2.2.2
  · intro hent
    cases hfirst : hashTableGetFirst t with
    | none => rfl
    | some x =>
        obtain ⟨it, k2, v2⟩ := x
        exfalso
        have hil : iterList t = (k2, v2) :: iterFrom t it := by
          simp only [iterList, hfirst]
        rw [hmap, hent] at hil
        cases hil

/-- Witness for C5 on the concrete configuration. -/
theorem claim_C5_witness :
    WF egTable ∧
    (iterList egTable = (entries egTable).map (fun p => (p.key, p.value)) ∧
     ((iterList egTable).length : Int) = HashTableSize egTable ∧
     (iterList egTable).Pairwise
       (fun a b => egTable.keycmp a.1 b.1 ≠ 0 ∧ egTable.keycmp b.1 a.1 ≠ 0) ∧
     (entries egTable = [] → hashTableGetFirst egTable = none)) :=
  ⟨egTable_WF, claim_C5 egTable egTable_WF⟩

/-- C6: calculateIdealNumOfBuckets always produces an odd value at least 5
that no odd trial divisor in [3, 49] divides except as the value itself, and
the value is the first candidate of the sequence idealStart, idealStart + 2,
idealStart + 4, ... (the floor of elementCount / idealRatio clamped to 5 or
forced odd) accepted by the trial-division probable-prime test. -/
theorem claim_C6 {κ ν : Type} (ht : HashTable κ ν) :
    calculateIdealNumOfBuckets ht % 2 = 1 ∧
    5 ≤ calculateIdealNumOfBuckets ht ∧
    (∀ i : Int, 3 ≤ i → i ≤ 49 → i % 2 = 1 →
      i ∣ calculateIdealNumOfBuckets ht → calculateIdealNumOfBuckets ht = i) ∧
    (∃ j : Nat, calculateIdealNumOfBuckets ht = idealStart ht + 2 * (j : Int) ∧
      isProbablePrime (calculateIdealNumOfBuckets ht) = true ∧
      ∀ i : Nat, i < j → isProbablePrime (idealStart ht + 2 * (i : Int)) = false) := by
  have hodd := idealStart_odd ht
  have hge := idealStart_ge_five ht
  have hspec := Nat.find_spec (exists_probablePrime_step (idealStart ht) (idealStart_odd ht))
  have hdef : calculateIdealNumOfBuckets ht = idealStart ht +
      2 * ((Nat.find (exists_probablePrime_step (idealStart ht) (idealStart_odd ht)) : Nat) : Int) := rfl
  have haccept : isProbablePrime (calculateIdealNumOfBuckets ht) = true := by
    rw [hdef]
    exact hspec
  refine ⟨?_, ?_, ?_, ?_⟩
  · rw [hdef]
    omega
  · rw [hdef]
    have : (0:Int) ≤ ((Nat.find (exists_probablePrime_step (idealStart ht)
        (idealStart_odd ht)) : Nat) : Int) := Int.natCast_nonneg _
    omega
  · intro i h1 h2 h3 hdvd
    have hpos : 0 < calculateIdealNumOfBuckets ht := by
      rw [hdef]
      have : (0:Int) ≤ ((Nat.find (exists_probablePrime_step (idealStart ht)
          (idealStart_odd ht)) : Nat) : Int) := Int.natCast_nonneg _
      omega
    exact trialDivide_dvd hpos oddTrialDivisors oddTrialDivisors_pos_sorted.1
      oddTrialDivisors_pos_sorted.2 haccept i (mem_oddTrialDivisors i h1 h2 h3) hdvd
  · refine ⟨Nat.find (exists_probablePrime_step (idealStart ht) (idealStart_odd ht)),
      rfl, haccept, ?_⟩
    intro i hlt
    have := Nat.find_min (exists_probablePrime_step (idealStart ht) (idealStart_odd ht)) hlt
    exact Bool.not_eq_true _ ▸ Bool.eq_false_iff.mpr (fun he => this he)

/-- C7: on allocation failure the table is untouched: a put that reaches the
entry allocation (no chain entry compares equal) with the allocation failing
returns -1 and the identical table, and a rehash whose new bucket array
cannot be allocated returns the identical table for every requested count. -/
theorem claim_C7 {κ ν : Type} (ht : HashTable κ ν) (k : κ) (v : ν) (b : Bool)
    (n : Nat)
    (hfind : chainFind ht.keycmp k (bucketOf ht (bucketIdx ht k)) = none) :
    HashTablePut false b ht k v = (-1, ht) ∧ HashTableRehash false ht n = ht := by
  constructor
  · simp [HashTablePut, hfind]
  · simp only [HashTableRehash]
    split
    · rfl
    · simp

/-- Witness for C7 on the concrete configuration. -/
theorem claim_C7_witness :
    chainFind egTable.keycmp 2 (bucketOf egTable (bucketIdx egTable 2)) = none ∧
    (HashTablePut false true egTable 2 3 = (-1, egTable) ∧
     HashTableRehash false egTable 7 = egTable) :=
  ⟨by decide, claim_C7 egTable 2 3 true 7 (by decide)⟩

/-- C8: removeAll on a well-formed table (with the post-clear rehash's
allocation succeeding) leaves zero elements, an iteration that yields
nothing, exactly the fixed post-clear bucket count 5, and hands precisely
the previously stored entries to the release machinery. -/
theorem claim_C8 {κ ν : Type} (ht : HashTable κ ν) (hWF : WF ht) :
    HashTableSize (HashTableRemoveAll true ht).1 = 0 ∧
    iterList (HashTableRemoveAll true ht).1 = [] ∧
    (HashTableRemoveAll true ht).1.numOfBuckets = 5 ∧
    (HashTableRemoveAll true ht).2 = entries ht := by
  have hres : WF (HashTableRemoveAll true ht).1 := removeAll_WF true hWF
  have hperm := rehash_entries_perm true
    { ht with bucketArray := ht.bucketArray.map fun _ => [], numOfElements := 0 } 5
  have hclrent : entries
      { ht with bucketArray := ht.bucketArray.map fun _ => [], numOfElements := 0 }
      = [] := map_nil_flatten ht.bucketArray
  rw [hclrent] at hperm
  have hent : entries (HashTableRemoveAll true ht).1 = [] := hperm.eq_nil
  refine ⟨?_, ?_, ?_, rfl⟩
  · exact ((rehash_fields true
      { ht with bucketArray := ht.bucketArray.map fun _ => [], numOfElements := 0 } 5).1).trans rfl
  · rw [iterList_eq_entries_map hres.2.1, hent]
    rfl
  · exact rehash_numOfBuckets _ 5 (by omega)

/-- Witness for C8 on the concrete configuration. -/
theorem claim_C8_witness :
    WF egTable ∧
    (HashTableSize (HashTableRemoveAll true egTable).1 = 0 ∧
     iterList (HashTableRemoveAll true egTable).1 = [] ∧
     (HashTableRemoveAll true egTable).1.numOfBuckets = 5 ∧
     (HashTableRemoveAll true egTable).2 = entries egTable) :=
  ⟨egTable_WF, claim_C8 egTable egTable_WF⟩

/-- C9: containsKey returns true exactly when get returns a non-absent
value, so a present key (whose stored value is non-null by the put
precondition) is never reported missing. -/
theorem claim_C9 {κ ν : Type} (ht : HashTable κ ν) (k : κ) :
    HashTableContainsKey ht k = true ↔ ∃ v, HashTableGet ht k = some v := by
  unfold HashTableContainsKey
  cases h : HashTableGet ht k <;> simp [h]

/-- C10: the candidate search of calculateIdealNumOfBuckets terminates: some
finite number of +2 steps from idealStart reaches a candidate accepted by
isProbablePrime, and the function's value is exactly that first accepted
candidate, making it total. -/
theorem claim_C10 {κ ν : Type} (ht : HashTable κ ν) :
    ∃ j : Nat, isProbablePrime (idealStart ht + 2 * (j : Int)) = true ∧
      calculateIdealNumOfBuckets ht = idealStart ht + 2 * (j : Int) :=
  ⟨Nat.find (exists_probablePrime_step (idealStart ht) (idealStart_odd ht)),
    Nat.find_spec (exists_probablePrime_step (idealStart ht) (idealStart_odd ht)),
    rfl⟩
